import Mathlib

/-!
Verification of the EML processing platform's deduplication and batch-state
core, shallowly embedded from `tools/email_processing/email_cleaner.py` and
`api_server.py`.  Python strings are modelled as `List Char` (sequences of
code points, ASCII fragment for case folding and whitespace), Python dicts as
association lists, and the MD5 content hash as the hashed text itself (MD5 is
treated as injective, so hash equality is text equality).
-/

set_option maxRecDepth 10000

namespace EmlProc

/-- ASCII fragment of Python's `\s` / `str.strip` whitespace set. -/
def pyIsSpace (c : Char) : Bool :=
  c == ' ' || c == '\t' || c == '\n' || c == '\r' || c == '\x0b' || c == '\x0c'

/-- ASCII fragment of Python's `str.lower` on one character. -/
def pyLowerChar (c : Char) : Char :=
  if 'A' ≤ c ∧ c ≤ 'Z' then Char.ofNat (c.toNat + 32) else c

/-- Python's `str.lower` over a whole string. -/
def pyLower (s : List Char) : List Char := s.map pyLowerChar

/-- Model of `re.sub(r'\s+', '', s.lower())` (email_cleaner.py line 210): lower-case,
then delete every whitespace character. -/
def normalizeText (s : List Char) : List Char :=
  (pyLower s).filter (fun c => !(pyIsSpace c))

/-- Python `a.startswith(b)`-style check: the first list is an initial segment of the second. -/
def startsWithSeg : List Char → List Char → Bool
  | [], _ => true
  | _ :: _, [] => false
  | a :: as, b :: bs => a == b && startsWithSeg as bs

/-- Python's substring test `a in b` (contiguous subsequence). -/
def subSeg (a : List Char) : List Char → Bool
  | [] => startsWithSeg a []
  | b :: bs => startsWithSeg a (b :: bs) || subSeg a bs

/-- The fields of one parsed email record (`parse_eml_file` output dict) that
the deduplicator reads or writes.  The remaining parsed header fields
(`from`, `to`, `cc`, `date`, ...) are carried through `find_duplicates`
unchanged and are omitted.  `contained_files` is absent (empty) on a freshly
parsed record and populated only on surviving container records. -/
structure EmailInfo where
  filename : String
  subject : String
  cleaned_content : List Char
  contained_files : List String
deriving DecidableEq, Inhabited, Repr

/-- One entry of the `duplicates` list built by `find_duplicates`
(email_cleaner.py lines 251-257).  `content_length` models the numerator of
the `content_length_ratio` display string `f"{len(current_content)}/?"`. -/
structure DupRecord where
  duplicate_file : String
  duplicate_subject : String
  contained_by_file : String
  contained_by_subject : String
  content_length : Nat
deriving DecidableEq, Repr

/-- The mutable state of the `find_duplicates` loop:
`unique_emails`, `duplicates`, the `unique_normalized` cache dict
(index of a unique email -> its normalized content), and the
`unique_hashes` set (hashes modelled as the normalized texts themselves). -/
structure DedupState where
  unique_emails : List EmailInfo
  duplicates : List DupRecord
  unique_normalized : List (Nat × List Char)
  unique_hashes : List (List Char)
deriving Repr

/-- Model of `unique_normalized.get(i, "")` (dict lookup with default). -/
def cacheGetD (cache : List (Nat × List Char)) (i : Nat) : List Char :=
  match cache.lookup i with
  | some u => u
  | none => []

/-- The hash-equality scan of email_cleaner.py lines 219-225: walk
`unique_emails` from the oldest, take the cached normalized content (default
`""`), skip entries whose cached content is empty, and return the index of
the first whose content hash equals the current hash (with the injective
hash model: whose cached content equals `cur`). -/
def findHashMatch (cache : List (Nat × List Char)) (cur : List Char) :
    Nat → Nat → Option Nat
  | 0, _ => none
  | fuel + 1, i =>
    let u := cacheGetD cache i
    if u ≠ [] ∧ u = cur then some i
    else findHashMatch cache cur fuel (i + 1)

/-- The containment scan of email_cleaner.py lines 229-247: for `i` in
`range(check_range)` look at `unique_emails[-(i+1)]`, lazily (re)computing
and storing its normalized content in the cache, and stop at the first
candidate with `len(cur) > 0 and len(cur) <= len(candidate) and
cur in candidate`.  Returns the matched index (if any) and the cache after
the lazy stores. -/
def containLoop (uniques : List EmailInfo) (cur : List Char) :
    Nat → Nat → List (Nat × List Char) → Option Nat × List (Nat × List Char)
  | 0, _, cache => (none, cache)
  | fuel + 1, i, cache =>
    let j := uniques.length - (i + 1)
    let fetched :=
      match cache.lookup j with
      | some u => (u, cache)
      | none =>
        let u := normalizeText (uniques.getD j default).cleaned_content
        (u, (j, u) :: cache)
    if 0 < cur.length ∧ cur.length ≤ fetched.1.length ∧ subSeg cur fetched.1 then
      (some j, fetched.2)
    else containLoop uniques cur fuel (i + 1) fetched.2

/-- The cache cleanup of email_cleaner.py lines 274-278: delete the entries
with the 50 numerically smallest (oldest) keys. -/
def evictOldest (cache : List (Nat × List Char)) : List (Nat × List Char) :=
  let toRemove := (List.insertionSort (fun a b => a ≤ b) (cache.map Prod.fst)).take 50
  cache.filter (fun p => decide (p.fst ∉ toRemove))

/-- Lines 217-247 of email_cleaner.py: the fast hash check (entered only
when the current hash is in `unique_hashes`) followed, on a miss, by the
containment scan.  Yields the index of the matched container (if any) and
the cache after any lazy stores. -/
def scanDup (st : DedupState) (cur : List Char) :
    Option Nat × List (Nat × List Char) :=
  match
    (if cur ∈ st.unique_hashes then
      findHashMatch st.unique_normalized cur st.unique_emails.length 0
    else none) with
  | some i => (some i, st.unique_normalized)
  | none =>
    containLoop st.unique_emails cur (min st.unique_emails.length 100) 0
      st.unique_normalized

/-- The end-of-iteration cache cleanup guard (email_cleaner.py line 274):
evict when strictly more than 150 entries are tracked. -/
def applyEvict (st : DedupState) : DedupState :=
  if st.unique_normalized.length > 150 then
    { st with unique_normalized := evictOldest st.unique_normalized }
  else st

/-- One iteration of the `for idx, email_info in enumerate(emails_sorted)`
loop of `find_duplicates` (email_cleaner.py lines 208-278). -/
def dedupStep (st : DedupState) (e : EmailInfo) : DedupState :=
  let cur := normalizeText e.cleaned_content
  let scanned := scanDup st cur
  applyEvict
    (match scanned.1 with
    | some j =>
      let container := st.unique_emails.getD j default
      { st with
        duplicates := st.duplicates ++
          [⟨e.filename, e.subject, container.filename, container.subject, cur.length⟩],
        unique_emails := st.unique_emails.set j
          { container with contained_files := container.contained_files ++ [e.filename] },
        unique_normalized := scanned.2 }
    | none =>
      { st with
        unique_emails := st.unique_emails ++ [e],
        unique_normalized := (st.unique_emails.length, cur) :: scanned.2,
        unique_hashes := st.unique_hashes ++ [cur] })

/-- The descending comparison `sorted(emails, key=lambda x:
len(x['cleaned_content']), reverse=True)` sorts by: `a` may come before `b`
iff `b`'s cleaned content is no longer than `a`'s. -/
def lenGe (a b : EmailInfo) : Prop :=
  b.cleaned_content.length ≤ a.cleaned_content.length

instance : DecidableRel lenGe := fun _ _ => Nat.decLe _ _

instance : IsTotal EmailInfo lenGe :=
  ⟨fun a b => Nat.le_total b.cleaned_content.length a.cleaned_content.length⟩

instance : IsTrans EmailInfo lenGe :=
  ⟨fun _ _ _ hab hbc => Nat.le_trans hbc hab⟩

/-- email_cleaner.py line 199: Python's stable `sorted` with
`key=len(cleaned_content)` and `reverse=True` is stable insertion sort with
the `lenGe` comparison. -/
def sortByCleanedLen (emails : List EmailInfo) : List EmailInfo :=
  List.insertionSort lenGe emails

/-- The whole `find_duplicates` run, keeping the final loop state. -/
def dedupFold (emails : List EmailInfo) : DedupState :=
  (sortByCleanedLen emails).foldl dedupStep ⟨[], [], [], []⟩

/-- Model of `EmailCleaner.find_duplicates` (email_cleaner.py lines 195-285):
returns `(unique_emails, duplicates)`. -/
def find_duplicates (emails : List EmailInfo) : List EmailInfo × List DupRecord :=
  ((dedupFold emails).unique_emails, (dedupFold emails).duplicates)

/-- Record A of scenario P2 with a whitespace-only (hence normalized-empty)
cleaned text: its cleaned text is a strict initial segment of B's. -/
def cex1A : EmailInfo := ⟨"a.eml", "sA", [], []⟩

/-- Record B of the degenerate P2 scenario. -/
def cex1B : EmailInfo := ⟨"b.eml", "sB", ['x'], []⟩

/-- Two records with byte-identical (empty) cleaned texts. -/
def cex3A : EmailInfo := ⟨"c.eml", "sC", [], []⟩

/-- Second record with the same empty cleaned text, different filename. -/
def cex3B : EmailInfo := ⟨"d.eml", "sD", [], []⟩

/-- Concrete record used to instantiate the containment scenario: cleaned
text `"x"`. -/
def witA : EmailInfo := ⟨"a.eml", "sA", ['x'], []⟩

/-- Concrete record whose cleaned text `"xy"` strictly extends `witA`'s. -/
def witB : EmailInfo := ⟨"b.eml", "sB", ['x', 'y'], []⟩

/-- Concrete record with cleaned text `"z"`. -/
def witC : EmailInfo := ⟨"c.eml", "s1", ['z'], []⟩

/-- Concrete record with the same cleaned text `"z"`, different filename. -/
def witD : EmailInfo := ⟨"d.eml", "s2", ['z'], []⟩

/-- A family of pairwise-distinct cleaned texts `"b" ++ "a"*i ++ "b"` of
length `i + 2`: no member is a substring of another member, every member is
fixed by normalization, and lengths are pairwise distinct. -/
def cContent (i : Nat) : List Char := 'b' :: (List.replicate i 'a' ++ ['b'])

/-- The `k`-th record of the 151-record eviction scenario; contents are
fed in strictly decreasing length so the sort leaves the order unchanged. -/
def cex8email (k : Nat) : EmailInfo := ⟨"", "", cContent (150 - k), []⟩

/-- The 151 records, all mutually non-duplicate: every one survives, so the
`unique_normalized` cache reaches 151 entries and evicts. -/
def cex8emails : List EmailInfo := (List.range 151).map cex8email

/-- Closed form of the `unique_normalized` cache after `n ≤ 150` records of
the eviction scenario: newest entry first, keys `n-1, ..., 0`. -/
def cex8cache (n : Nat) : List (Nat × List Char) :=
  (List.range n).reverse.map (fun k => (k, cContent (150 - k)))

/-- Closed form of the `unique_hashes` set after `n` records. -/
def cex8hashes (n : Nat) : List (List Char) :=
  (List.range n).map (fun k => cContent (150 - k))

/-- Closed form of the whole loop state after `n ≤ 150` records. -/
def cex8state (n : Nat) : DedupState :=
  ⟨(List.range n).map cex8email, [], cex8cache n, cex8hashes n⟩

/-- The loop state after all 151 records: the 151-entry cache was evicted,
deleting keys 0-49 and keeping the 101 entries with keys 50-150. -/
def cex8finalState : DedupState :=
  ⟨(List.range 151).map cex8email, [],
   (List.range' 50 101).reverse.map (fun k => (k, cContent (150 - k))),
   cex8hashes 151⟩

/-- A concrete 151-entry cache with pairwise-distinct keys 0..150, used to
instantiate the eviction characterization. -/
def wit8cache : List (Nat × List Char) :=
  (List.range 151).map (fun i => (i, []))

/-! Part: clean_content (email_cleaner.py lines 124-150) -/

/-- Drop a trailing run of characters satisfying `p`. -/
def dropTrailing (p : Char → Bool) (s : List Char) : List Char :=
  (s.reverse.dropWhile p).reverse

/-- Python's `str.strip()` (ASCII whitespace fragment). -/
def pyStrip (s : List Char) : List Char :=
  dropTrailing pyIsSpace (s.dropWhile pyIsSpace)

/-- Length of the maximal leading whitespace run. -/
def wsRunLen : List Char → Nat
  | [] => 0
  | c :: rest => if pyIsSpace c then wsRunLen rest + 1 else 0

/-- Backtracking helper: try to consume `k` whitespace characters followed
by a newline and then let `f` match the remainder, decreasing `k` (greedy:
largest `k` first).  Returns the total number of characters consumed. -/
def tryKAux (f : List Char → Option Nat) (s : List Char) : Nat → Option Nat
  | 0 => if s[0]? = some '\n' then (f (s.drop 1)).map (fun m => m + 1) else none
  | k + 1 =>
    match
      (if s[k + 1]? = some '\n' then
        (f (s.drop (k + 2))).map (fun m => m + (k + 2))
      else none) with
    | some m => some m
    | none => tryKAux f s k

/-- Greedy backtracking match of `(\s*\n){d}` at the head of `s`,
returning the number of characters consumed. -/
def matchRep : Nat → List Char → Option Nat
  | 0, _ => some 0
  | d + 1, s => tryKAux (matchRep d) s (wsRunLen s)

/-- Fuel-indexed scanner for `re.sub(r'\n\s*\n\s*\n', '\n\n', s)`: leftmost
non-overlapping greedy matches, scanning resumes after each replacement.
Every step consumes at least one character, so `s.length` fuel always
suffices; the fuel only makes the recursion structural. -/
def subPatFuel : Nat → List Char → List Char
  | 0, _ => []
  | _ + 1, [] => []
  | fuel + 1, c :: rest =>
    if c = '\n' then
      match matchRep 2 rest with
      | some m => '\n' :: '\n' :: subPatFuel fuel (rest.drop m)
      | none => c :: subPatFuel fuel rest
    else c :: subPatFuel fuel rest

/-- Model of `re.sub(r'\n\s*\n\s*\n', '\n\n', s)` (email_cleaner.py line 130). -/
def subPat (s : List Char) : List Char := subPatFuel s.length s

/-- Python's `s.split('\n')`. -/
def splitNl : List Char → List (List Char)
  | [] => [[]]
  | c :: rest =>
    match splitNl rest with
    | [] => [[]]
    | l :: ls => if c = '\n' then [] :: l :: ls else (c :: l) :: ls

/-- Model of `line.startswith(('Received:', 'Message-ID:', 'Return-Path:', 'X-'))`
(email_cleaner.py line 141), applied to the already-stripped line. -/
def isTechLine (line : List Char) : Bool :=
  startsWithSeg "Received:".data line || startsWithSeg "Message-ID:".data line ||
    startsWithSeg "Return-Path:".data line || startsWithSeg "X-".data line

/-- The line-filtering loop of `clean_content` (email_cleaner.py lines
137-148): each line is stripped first; a stripped line with a technical
prefix starts a skip region and is dropped; a non-empty stripped line that
does not start with a space ends the region; lines are kept (stripped)
whenever the region is not active. -/
def stripTechLoop : Bool → List (List Char) → List (List Char)
  | _, [] => []
  | skip, l :: ls =>
    let line := pyStrip l
    if isTechLine line then stripTechLoop true ls
    else
      let skip2 :=
        if skip && !(line.isEmpty) && !(startsWithSeg [' '] line) then false
        else skip
      if skip2 then stripTechLoop skip2 ls else line :: stripTechLoop skip2 ls

/-- Model of `EmailCleaner.clean_content` (email_cleaner.py lines 124-150): collapse
triple-blank runs, strip technical header regions line by line, rejoin and
strip. -/
def clean_content (content : List Char) : List Char :=
  if content.isEmpty then []
  else pyStrip (List.intercalate ['\n'] (stripTechLoop false (splitNl (subPat content))))

/-! Part: process_batch and the Global Ledger (email_cleaner.py 366-480) -/

/-- One value of the Global Ledger dict
`.global_processed_emails[filename]` (email_cleaner.py lines 423-427). -/
structure LedgerEntry where
  batch_id : String
  processed_at : String
  subject : String
deriving DecidableEq, Repr

/-- One entry of `global_duplicates` (email_cleaner.py lines 411-415). -/
structure GlobalDup where
  file_name : String
  previous_batch : String
  previous_time : String
deriving DecidableEq, Repr

/-- Dict lookup on the ledger (first match; keys are unique because a key
is only ever added after a failed lookup). -/
def ledgerLookup (ledger : List (String × LedgerEntry)) (name : String) :
    Option LedgerEntry :=
  ledger.lookup name

/-- The accumulating state of the per-file loop of `process_batch`
(email_cleaner.py lines 398-429). -/
structure ParseState where
  emails : List EmailInfo
  failed_files : List String
  global_duplicates : List GlobalDup
  ledger : List (String × LedgerEntry)
deriving Repr

/-- One iteration of the file loop (email_cleaner.py lines 402-429): a file
whose name is in the (evolving) ledger is skipped before parsing and
reported as a global duplicate; otherwise its parse outcome (injected as
data: `some record` or `none` for a parse failure) is consumed and, on
success, the ledger gains an entry for the file owned by this batch. -/
def parseStep (batch_id now : String) (st : ParseState)
    (f : String × Option EmailInfo) : ParseState :=
  match ledgerLookup st.ledger f.fst with
  | some entry =>
    { st with global_duplicates := st.global_duplicates ++
        [⟨f.fst, entry.batch_id, entry.processed_at⟩] }
  | none =>
    match f.snd with
    | some info =>
      { st with emails := st.emails ++ [info],
                ledger := st.ledger ++ [(f.fst, ⟨batch_id, now, info.subject⟩)] }
    | none => { st with failed_files := st.failed_files ++ [f.fst] }

/-- The whole file loop of `process_batch` over the batch's `.eml` files. -/
def parseFiles (batch_id now : String) (ledger0 : List (String × LedgerEntry))
    (files : List (String × Option EmailInfo)) : ParseState :=
  files.foldl (parseStep batch_id now) ⟨[], [], [], ledger0⟩

/-- The four per-batch status booleans. -/
structure BatchStatus where
  uploaded : Bool
  cleaned : Bool
  llm_processed : Bool
  uploaded_to_kb : Bool
deriving DecidableEq, Repr

/-- The `dedup_stats` block written into the batch metadata
(email_cleaner.py lines 459-464). -/
structure DedupStats where
  total_emails : Nat
  unique_emails : Nat
  duplicates : Nat
  global_duplicates : Nat
deriving DecidableEq, Repr

/-- One entry of the batch metadata's `files` inventory. -/
structure FileDetail where
  filename : String
  size : Nat
  upload_time : String
deriving DecidableEq, Repr

/-- The per-batch metadata document `.batch_info.json`. -/
structure BatchInfo where
  batch_id : String
  upload_time : String
  file_count : Nat
  custom_label : String
  status : BatchStatus
  files : List FileDetail
  processing_history : List (String × String)
  kb_name : Option String
  dedup_stats : Option DedupStats
deriving DecidableEq, Repr

/-- Python dict assignment `h[k] = v`: update in place if present, else
append. -/
def histSet (h : List (String × String)) (k v : String) :
    List (String × String) :=
  if h.any (fun p => p.fst == k) then
    h.map (fun p => if p.fst == k then (k, v) else p)
  else h ++ [(k, v)]

/-- Everything `process_batch` returns or durably writes: the response
dict, the updated batch metadata (if a metadata file existed), the
in-memory ledger, and whether the ledger write reached the disk.
`saved_markdown` lists the source filenames of the survivors for which a
Markdown file is written (`save_markdown_file` derives the `.md` name from
this source filename). -/
structure ProcessBatchOutput where
  success : Bool
  skipped : Bool
  batch_info : Option BatchInfo
  ledger_mem : List (String × LedgerEntry)
  ledger_saved : Bool
  unique_emails : List EmailInfo
  duplicates : List DupRecord
  global_duplicates : List GlobalDup
  failed_files : List String
  saved_markdown : List String
deriving Repr

/-- The body of `process_batch` after the already-cleaned check
(email_cleaner.py lines 388-480).  `writeOk` injects whether the disk write
of `_save_global_processed` succeeds; an exception during that write is
caught inside `_save_global_processed` (lines 57-58), so execution
continues on the same path whether or not `writeOk` holds, and the
metadata update (lines 456-467) runs unconditionally afterwards. -/
def processBatchCore (batch_id now : String) (writeOk : Bool)
    (batch_info? : Option BatchInfo) (files : List (String × Option EmailInfo))
    (ledger0 : List (String × LedgerEntry)) : ProcessBatchOutput :=
  if files.length = 0 then
    ⟨false, false, batch_info?, ledger0, false, [], [], [], [], []⟩
  else
    let st := parseFiles batch_id now ledger0 files
    if st.emails.length = 0 then
      ⟨false, false, batch_info?, st.ledger, false, [], [],
        st.global_duplicates, st.failed_files, []⟩
    else
      let saved := writeOk
      let uniq := (find_duplicates st.emails).1
      let dups := (find_duplicates st.emails).2
      let bi2 := batch_info?.map (fun bi =>
        { bi with
          status := { bi.status with cleaned := true },
          processing_history := histSet bi.processing_history "cleaned_at" now,
          dedup_stats := some ⟨files.length, uniq.length, dups.length,
            st.global_duplicates.length⟩ })
      ⟨true, false, bi2, st.ledger, saved, uniq, dups,
        st.global_duplicates, st.failed_files, uniq.map EmailInfo.filename⟩

/-- Model of `EmailCleaner.process_batch` (email_cleaner.py lines 366-480): skip the
whole batch when the metadata already says `cleaned`, otherwise run the
core. -/
def process_batch (batch_id now : String) (writeOk : Bool)
    (batch_info? : Option BatchInfo) (files : List (String × Option EmailInfo))
    (ledger0 : List (String × LedgerEntry)) : ProcessBatchOutput :=
  match batch_info? with
  | some bi =>
    if bi.status.cleaned then
      ⟨true, true, some bi, ledger0, false, [], [], [], [], []⟩
    else processBatchCore batch_id now writeOk (some bi) files ledger0
  | none => processBatchCore batch_id now writeOk none files ledger0

/-! Part: reset_batch (api_server.py lines 2583-2677) -/

/-- Lines 2628-2638: collect the ledger keys owned by `batch_id`, delete
them, and keep everything else. -/
def removeBatchLedgerEntries (ledger : List (String × LedgerEntry))
    (batch_id : String) : List (String × LedgerEntry) :=
  let emails_to_remove :=
    (ledger.filter (fun p => p.snd.batch_id == batch_id)).map Prod.fst
  ledger.filter (fun p => decide (p.fst ∉ emails_to_remove))

/-- Lines 2654-2663: reset the status flags (uploaded stays true) and drop
the `kb_name` label; every other metadata field is untouched. -/
def reset_batch_info (bi : BatchInfo) : BatchInfo :=
  { bi with status := ⟨true, false, false, false⟩, kb_name := none }

/-! Part: upload_files (api_server.py lines 352-460) -/

/-- Helper for `allowed_file` (api_server.py lines 50-51): the name contains a dot and
the part after the last dot, lower-cased, is `eml`. -/
def lastDotSplit : List Char → Option (List Char)
  | [] => none
  | c :: rest =>
    match lastDotSplit rest with
    | some suf => some suf
    | none => if c = '.' then some rest else none

/-- Model of `allowed_file(filename)` from api_server.py lines 50-51. -/
def allowed_file (filename : List Char) : Bool :=
  match lastDotSplit filename with
  | some suf => pyLower suf == "eml".data
  | none => false

/-- Python dict assignment for the `existing_files` scan
(`existing_files[name] = batch`): overwrite if present, else append. -/
def dictInsert (d : List (String × String)) (k v : String) :
    List (String × String) :=
  if d.any (fun p => p.fst == k) then
    d.map (fun p => if p.fst == k then (k, v) else p)
  else d ++ [(k, v)]

/-- Lines 371-380: walk every directory under the uploads root whose name
starts with `batch_` and record, for each of its `.eml` files, the owning
batch (later directories overwrite earlier ones in the dict).  A directory
is modelled as its name paired with the names of its `.eml` files. -/
def collectExisting (dirs : List (String × List String)) :
    List (String × String) :=
  dirs.foldl
    (fun acc dir =>
      if startsWithSeg "batch_".data dir.fst.data then
        dir.snd.foldl (fun a f => dictInsert a f dir.fst) acc
      else acc)
    []

/-- One file of an upload request: the browser-supplied name (checked by
`allowed_file`) and the `secure_filename` result under which it would be
stored, plus its size. -/
structure UploadFile where
  raw_name : String
  secured_name : String
  size : Nat
deriving DecidableEq, Repr

/-- One entry of the response's `duplicate_files` list
(api_server.py lines 398-402). -/
structure DupFile where
  filename : String
  previous_batch : String
  previous_time : String
deriving DecidableEq, Repr

/-- The accumulating state of the upload loop (api_server.py lines
387-416): the response lists plus the physical contents of the new batch
directory. -/
structure UploadState where
  uploaded_files : List String
  file_details : List FileDetail
  duplicate_files : List DupFile
  saved_in_batch_dir : List String
deriving DecidableEq, Repr

/-- One iteration of the upload loop (api_server.py lines 391-416): skip
non-`.eml` files; a secured name already present in some existing batch
directory is skipped (not saved) and reported with its owning batch and
`previous_time = "N/A"`; otherwise the file is written into the new batch
directory and added to the inventory. -/
def uploadStep (now : String) (existing : List (String × String))
    (st : UploadState) (f : UploadFile) : UploadState :=
  if allowed_file f.raw_name.data then
    match existing.lookup f.secured_name with
    | some prev =>
      { st with duplicate_files := st.duplicate_files ++
          [⟨f.secured_name, prev, "N/A"⟩] }
    | none =>
      { st with
        uploaded_files := st.uploaded_files ++ [f.secured_name],
        file_details := st.file_details ++ [⟨f.secured_name, f.size, now⟩],
        saved_in_batch_dir := st.saved_in_batch_dir ++ [f.secured_name] }
  else st

/-- Model of `upload_files` (api_server.py lines 352-460): scan the existing batch
directories, then process every posted file, then create the new batch's
metadata (status uploaded, nothing else; `file_count` counts only the
actually saved files). -/
def upload_files (now batch_id label : String)
    (dirs : List (String × List String)) (files : List UploadFile) :
    UploadState × BatchInfo :=
  let existing := collectExisting dirs
  let st := files.foldl (uploadStep now existing) ⟨[], [], [], []⟩
  (st,
    { batch_id := batch_id, upload_time := now,
      file_count := st.uploaded_files.length, custom_label := label,
      status := ⟨true, false, false, false⟩, files := st.file_details,
      processing_history := [], kb_name := none, dedup_stats := none })

/-- A ledger entry owned by batch_X, used in concrete instantiations. -/
def witLedE : LedgerEntry := ⟨"batch_X", "2026-01-01T00:00:00", "Old subject"⟩

/-- A one-entry initial ledger claiming `dup.eml` for batch_X. -/
def witLed0 : List (String × LedgerEntry) := [("dup.eml", witLedE)]

/-- A three-file batch listing: one ledgered file, one fresh parseable
file, one fresh unparseable file. -/
def witFiles : List (String × Option EmailInfo) :=
  [("dup.eml", some ⟨"dup.eml", "s1", ['x'], []⟩),
   ("new.eml", some ⟨"new.eml", "s2", ['y'], []⟩),
   ("bad.eml", none)]

/-- Batch metadata of an uploaded, not-yet-cleaned one-file batch. -/
def wit5info : BatchInfo :=
  ⟨"batch_B", "t0", 1, "lbl", ⟨true, false, false, false⟩,
   [⟨"a.eml", 10, "t0"⟩], [], none, none⟩

/-- A one-file listing whose single file parses. -/
def wit5files : List (String × Option EmailInfo) :=
  [("a.eml", some ⟨"a.eml", "s", ['x'], []⟩)]

/-- Metadata of a fully processed batch about to be reset. -/
def wit6info : BatchInfo :=
  ⟨"batch_X", "t0", 1, "lbl", ⟨true, true, true, true⟩,
   [⟨"a.eml", 10, "t0"⟩], [("cleaned_at", "t1")], some "kb1",
   some ⟨1, 1, 0, 0⟩⟩

/-- A two-entry ledger with one entry owned by batch_X and one by
batch_Y. -/
def wit6ledger : List (String × LedgerEntry) :=
  [("a.eml", ⟨"batch_X", "t1", "sA"⟩), ("z.eml", ⟨"batch_Y", "t2", "sZ"⟩)]

/-- One existing batch directory `batch_A` containing `dup.eml`. -/
def wit10dirs : List (String × List String) := [("batch_A", ["dup.eml"])]

/-- An upload request re-posting `dup.eml` plus a fresh `new.eml`. -/
def wit10files : List UploadFile :=
  [⟨"dup.eml", "dup.eml", 10⟩, ⟨"new.eml", "new.eml", 20⟩]

/-- Record whose cleaned text `"a b c"` is longest raw but whose normalized
text `"abc"` is shorter than the next record's. -/
def cex7A : EmailInfo := ⟨"a.eml", "", "a b c".data, []⟩

/-- Record with cleaned text `"wxyz"`: shorter raw, longer normalized. -/
def cex7B : EmailInfo := ⟨"b.eml", "", "wxyz".data, []⟩

end EmlProc

namespace EmlProc

/-! Part: helper lemmas about the character-segment primitives -/

theorem startsWithSeg_iff {a b : List Char} : startsWithSeg a b = true ↔ a <+: b := by
  induction a generalizing b with
  | nil => simp [startsWithSeg, List.nil_prefix]
  | cons x xs ih =>
    cases b with
    | nil =>
      simp only [startsWithSeg, Bool.false_eq_true, false_iff]
      intro h
      simpa using h.length_le
    | cons y ys =>
      show (x == y && startsWithSeg xs ys) = true ↔ _
      rw [Bool.and_eq_true, beq_iff_eq, ih, List.cons_prefix_cons]

theorem subSeg_iff {a b : List Char} : subSeg a b = true ↔ a <:+: b := by
  induction b with
  | nil =>
    cases a with
    | nil => simp [subSeg, startsWithSeg]
    | cons x xs => simp [subSeg, startsWithSeg]
  | cons y ys ih =>
    simp [subSeg, startsWithSeg_iff, ih, List.infix_cons_iff]

theorem subSeg_of_append (a r : List Char) : subSeg a (a ++ r) = true := by
  rw [subSeg_iff]
  exact ⟨[], r, rfl⟩

theorem eq_of_subSeg_of_length_eq {a b : List Char} (h : subSeg a b = true)
    (hl : a.length = b.length) : a = b := by
  rw [subSeg_iff] at h
  exact h.eq_of_length hl

theorem normalizeText_append (a b : List Char) :
    normalizeText (a ++ b) = normalizeText a ++ normalizeText b := by
  simp [normalizeText, pyLower]

/-! Part: evaluation lemmas for two-record runs of the deduplicator -/

theorem sort_pair_of_lt {A B : EmailInfo}
    (h : A.cleaned_content.length < B.cleaned_content.length) :
    sortByCleanedLen [A, B] = [B, A] := by
  simp only [sortByCleanedLen, List.insertionSort, List.orderedInsert]
  rw [if_neg]
  exact fun hc => Nat.not_le_of_lt h hc

theorem sort_pair_of_ge {A B : EmailInfo}
    (h : B.cleaned_content.length ≤ A.cleaned_content.length) :
    sortByCleanedLen [A, B] = [A, B] := by
  simp only [sortByCleanedLen, List.insertionSort, List.orderedInsert]
  rw [if_pos (show lenGe A B from h)]

theorem dedupStep_empty (E : EmailInfo) :
    dedupStep ⟨[], [], [], []⟩ E =
      ⟨[E], [], [(0, normalizeText E.cleaned_content)],
       [normalizeText E.cleaned_content]⟩ := by
  simp [dedupStep, scanDup, applyEvict, containLoop]

theorem dedupStep_pair_dup {B : EmailInfo} {nB nA : List Char} (A : EmailInfo)
    (hA : normalizeText A.cleaned_content = nA)
    (hne : nA ≠ [])
    (hcase : nA = nB ∨ (nA ≠ nB ∧ nA.length ≤ nB.length ∧ subSeg nA nB = true)) :
    dedupStep ⟨[B], [], [(0, nB)], [nB]⟩ A =
      ⟨[{ B with contained_files := B.contained_files ++ [A.filename] }],
       [⟨A.filename, A.subject, B.filename, B.subject, nA.length⟩],
       [(0, nB)], [nB]⟩ := by
  rcases hcase with heq | ⟨hneq, hle, hsub⟩
  · subst heq
    simp [dedupStep, scanDup, applyEvict, hA, findHashMatch, cacheGetD, List.lookup, hne]
  · have hmem : nA ∉ [nB] := by simp [hneq]
    have hpos : 0 < nA.length := List.length_pos.mpr hne
    simp [dedupStep, scanDup, applyEvict, hA, hmem, hneq, containLoop, List.lookup, hpos, hle, hsub]

/-! Part: C7: processing order of the deduplicator -/

/-- Claim C7 as frozen is false: `find_duplicates` sorts by the raw cleaned
text length (whitespace included, email_cleaner.py line 199), not by the
normalized length.  With cleaned texts `"a b c"` (raw 5, normalized 3) and
`"wxyz"` (raw 4, normalized 4), the first-processed record has the strictly
smaller normalized length. -/
theorem C7_counterexample :
    ¬ List.Pairwise
        (fun a b =>
          (normalizeText b.cleaned_content).length ≤
            (normalizeText a.cleaned_content).length)
        (sortByCleanedLen [cex7A, cex7B]) := by
  decide

/-- Claim C7 (corrected): the deduplicator processes records in descending
order of raw cleaned-content length (`len(x['cleaned_content'])`), and the
processed sequence is a permutation of the input. -/
theorem C7_amended (es : List EmailInfo) :
    List.Sorted lenGe (sortByCleanedLen es) ∧ (sortByCleanedLen es).Perm es :=
  ⟨List.sorted_insertionSort lenGe es, List.perm_insertionSort lenGe es⟩

/-! Part: C1 and C3: containment and exact-duplicate detection on pairs -/

/-- Claim C1 as frozen is false: when A's cleaned text is the empty string
(a strict initial segment of every nonempty text), the containment check
`len(current_content) > 0` (email_cleaner.py line 242) rejects it and both
records survive; no duplicate is reported. -/
theorem C1_counterexample :
    (find_duplicates [cex1A, cex1B]).1.length = 2 ∧
      (find_duplicates [cex1A, cex1B]).2 = [] := by
  decide

/-- Claim C1 (corrected): if A's cleaned text is a strict initial segment of
B's cleaned text and contains at least one non-whitespace character (its
normalized text is nonempty), then deduplicating `[A, B]` leaves B as the
single survivor with A's filename appended to its contained-files list, and
reports A as a duplicate contained by B. -/
theorem C1_amended (A B : EmailInfo) (rest : List Char)
    (hB : B.cleaned_content = A.cleaned_content ++ rest) (hr : rest ≠ [])
    (hA : normalizeText A.cleaned_content ≠ []) :
    find_duplicates [A, B] =
      ([{ B with contained_files := B.contained_files ++ [A.filename] }],
       [⟨A.filename, A.subject, B.filename, B.subject,
         (normalizeText A.cleaned_content).length⟩]) := by
  have hlen : A.cleaned_content.length < B.cleaned_content.length := by
    rw [hB, List.length_append]
    have := List.length_pos.mpr hr
    omega
  have hnB : normalizeText B.cleaned_content =
      normalizeText A.cleaned_content ++ normalizeText rest := by
    rw [hB, normalizeText_append]
  have hcase : normalizeText A.cleaned_content = normalizeText B.cleaned_content ∨
      (normalizeText A.cleaned_content ≠ normalizeText B.cleaned_content ∧
        (normalizeText A.cleaned_content).length ≤
          (normalizeText B.cleaned_content).length ∧
        subSeg (normalizeText A.cleaned_content)
          (normalizeText B.cleaned_content) = true) := by
    by_cases he : normalizeText A.cleaned_content = normalizeText B.cleaned_content
    · exact Or.inl he
    · refine Or.inr ⟨he, ?_, ?_⟩
      · rw [hnB, List.length_append]; omega
      · rw [hnB]; exact subSeg_of_append _ _
  have hrun : dedupFold [A, B] =
      ⟨[{ B with contained_files := B.contained_files ++ [A.filename] }],
       [⟨A.filename, A.subject, B.filename, B.subject,
         (normalizeText A.cleaned_content).length⟩],
       [(0, normalizeText B.cleaned_content)], [normalizeText B.cleaned_content]⟩ := by
    unfold dedupFold
    rw [sort_pair_of_lt hlen]
    simp only [List.foldl]
    rw [dedupStep_empty B, dedupStep_pair_dup A rfl hA hcase]
  simp [find_duplicates, hrun]

/-- Witness for C1 (corrected) at cleaned texts `"x"` and `"xy"`. -/
theorem C1_witness :
    witB.cleaned_content = witA.cleaned_content ++ ['y'] ∧
      (['y'] : List Char) ≠ [] ∧
      normalizeText witA.cleaned_content ≠ [] ∧
      find_duplicates [witA, witB] =
        ([{ witB with contained_files := witB.contained_files ++ [witA.filename] }],
         [⟨witA.filename, witA.subject, witB.filename, witB.subject,
           (normalizeText witA.cleaned_content).length⟩]) :=
  ⟨by decide, by decide, by decide,
   C1_amended witA witB ['y'] (by decide) (by decide) (by decide)⟩

/-- Claim C3 as frozen is false: for two records with byte-identical EMPTY
cleaned texts, the hash scan skips cache entries whose content is empty
(`u_hash = ... if u_content else ""`, email_cleaner.py line 221) and the
containment check requires a positive length, so both records survive. -/
theorem C3_counterexample :
    (find_duplicates [cex3A, cex3B]).1.length = 2 ∧
      (find_duplicates [cex3A, cex3B]).2 = [] := by
  decide

/-- Claim C3 (corrected): for a two-element input list whose records have
byte-identical cleaned texts containing at least one non-whitespace
character, exactly one survivor results: the first record survives and the
second is classified as its exact duplicate.  (With an empty normalized
text, or when more than 100 intervening survivors have pushed the matching
survivor out of the comparison window and its cache entry has been evicted,
the detection fails — the spec documents the latter as the sliding-window
recall loss.) -/
theorem C3_amended (R1 R2 : EmailInfo)
    (hc : R1.cleaned_content = R2.cleaned_content)
    (hA : normalizeText R2.cleaned_content ≠ []) :
    find_duplicates [R1, R2] =
      ([{ R1 with contained_files := R1.contained_files ++ [R2.filename] }],
       [⟨R2.filename, R2.subject, R1.filename, R1.subject,
         (normalizeText R2.cleaned_content).length⟩]) := by
  have hge : R2.cleaned_content.length ≤ R1.cleaned_content.length := by rw [hc]
  have hrun : dedupFold [R1, R2] =
      ⟨[{ R1 with contained_files := R1.contained_files ++ [R2.filename] }],
       [⟨R2.filename, R2.subject, R1.filename, R1.subject,
         (normalizeText R2.cleaned_content).length⟩],
       [(0, normalizeText R1.cleaned_content)], [normalizeText R1.cleaned_content]⟩ := by
    unfold dedupFold
    rw [sort_pair_of_ge hge]
    simp only [List.foldl]
    rw [dedupStep_empty R1, dedupStep_pair_dup R2 rfl hA (Or.inl (by rw [hc]))]
  simp [find_duplicates, hrun]

/-! Part: C2: the deduplicator partitions its input -/

theorem findHashMatch_lt {cache : List (Nat × List Char)} {cur : List Char} :
    ∀ {fuel i j : Nat}, findHashMatch cache cur fuel i = some j → j < i + fuel := by
  intro fuel
  induction fuel with
  | zero => intro i j h; simp [findHashMatch] at h
  | succ n ih =>
    intro i j h
    rw [findHashMatch] at h
    split at h
    · cases h; omega
    · have := ih h; omega

theorem containLoop_some_lt {uniques : List EmailInfo} {cur : List Char} :
    ∀ {fuel i : Nat} {cache c' : List (Nat × List Char)} {j : Nat},
      containLoop uniques cur fuel i cache = (some j, c') →
      0 < uniques.length → j < uniques.length := by
  intro fuel
  induction fuel with
  | zero => intro i cache c' j h; simp [containLoop] at h
  | succ n ih =>
    intro i cache c' j h hpos
    rw [containLoop] at h
    split at h
    · cases h; omega
    · exact ih h hpos

theorem scanDup_some_lt {st : DedupState} {cur : List Char} {j : Nat}
    {c' : List (Nat × List Char)} (h : scanDup st cur = (some j, c')) :
    j < st.unique_emails.length := by
  rw [scanDup] at h
  split at h
  next i heq =>
    cases h
    split at heq
    · have := findHashMatch_lt heq; omega
    · cases heq
  next heq =>
    rcases Nat.eq_zero_or_pos st.unique_emails.length with hz | hpos
    · rw [hz] at h
      simp [containLoop] at h
    · exact containLoop_some_lt h hpos

theorem applyEvict_unique_emails (st : DedupState) :
    (applyEvict st).unique_emails = st.unique_emails := by
  rw [applyEvict]; split <;> rfl

theorem applyEvict_duplicates (st : DedupState) :
    (applyEvict st).duplicates = st.duplicates := by
  rw [applyEvict]; split <;> rfl

/-- Every `dedupStep` either absorbs the record into a container at an
in-range index (extending that survivor's `contained_files` and the
`duplicates` list) or appends it as a new survivor. -/
theorem dedupStep_shape (st : DedupState) (e : EmailInfo) :
    (∃ j, j < st.unique_emails.length ∧
      (dedupStep st e).unique_emails =
        st.unique_emails.set j
          { st.unique_emails.getD j default with
            contained_files :=
              (st.unique_emails.getD j default).contained_files ++ [e.filename] } ∧
      (dedupStep st e).duplicates = st.duplicates ++
        [⟨e.filename, e.subject, (st.unique_emails.getD j default).filename,
          (st.unique_emails.getD j default).subject,
          (normalizeText e.cleaned_content).length⟩]) ∨
    ((dedupStep st e).unique_emails = st.unique_emails ++ [e] ∧
      (dedupStep st e).duplicates = st.duplicates) := by
  rw [dedupStep]
  rcases hscan : scanDup st (normalizeText e.cleaned_content) with ⟨res, c'⟩
  cases res with
  | some j =>
    left
    refine ⟨j, scanDup_some_lt hscan, ?_, ?_⟩ <;>
      simp [hscan, applyEvict_unique_emails, applyEvict_duplicates]
  | none =>
    right
    constructor <;> simp [hscan, applyEvict_unique_emails, applyEvict_duplicates]

theorem map_filename_set (l : List EmailInfo) (j : Nat) (cf : List String) :
    (l.set j { l.getD j default with contained_files := cf }).map
        EmailInfo.filename = l.map EmailInfo.filename := by
  induction l generalizing j with
  | nil => simp
  | cons a t ih =>
    cases j with
    | zero => simp [List.getD]
    | succ n =>
      simp only [List.getD_cons_succ, List.set_cons_succ, List.map_cons,
        List.cons.injEq, true_and]
      exact ih n

theorem flatten_contained_set (l : List EmailInfo) (j : Nat) (x : String)
    (hj : j < l.length) :
    ((l.set j
      { l.getD j default with
        contained_files := (l.getD j default).contained_files ++ [x] }).map
          EmailInfo.contained_files).flatten.Perm
      (((l.map EmailInfo.contained_files).flatten) ++ [x]) := by
  induction l generalizing j with
  | nil => simp at hj
  | cons a t ih =>
    cases j with
    | zero =>
      simp only [List.getD_cons_zero, List.set_cons_zero, List.map_cons,
        List.flatten_cons]
      have h1 : (a.contained_files ++ [x]) ++ (t.map EmailInfo.contained_files).flatten
          = a.contained_files ++ ([x] ++ (t.map EmailInfo.contained_files).flatten) := by
        rw [List.append_assoc]
      have h2 : (a.contained_files ++
            ([x] ++ (t.map EmailInfo.contained_files).flatten)).Perm
          (a.contained_files ++ ((t.map EmailInfo.contained_files).flatten ++ [x])) :=
        List.Perm.append_left _ List.perm_append_comm
      have h3 : a.contained_files ++ ((t.map EmailInfo.contained_files).flatten ++ [x])
          = (a.contained_files ++ (t.map EmailInfo.contained_files).flatten) ++ [x] := by
        rw [List.append_assoc]
      rw [h1, ← h3]
      exact h2
    | succ n =>
      simp only [List.getD_cons_succ, List.set_cons_succ, List.map_cons,
        List.flatten_cons, List.append_assoc]
      exact List.Perm.append_left _ (by
        have := ih n (by simpa using Nat.lt_of_succ_lt_succ hj)
        simpa [List.append_assoc] using this)

/-- The filename view: survivors' filenames followed by the duplicates'
filenames. -/
def fnView (st : DedupState) : List String :=
  st.unique_emails.map EmailInfo.filename ++ st.duplicates.map DupRecord.duplicate_file

theorem fnView_step (st : DedupState) (e : EmailInfo) :
    (fnView (dedupStep st e)).Perm (fnView st ++ [e.filename]) := by
  rcases dedupStep_shape st e with ⟨j, _, hu, hd⟩ | ⟨hu, hd⟩
  · rw [fnView, fnView, hu, hd, map_filename_set]
    simp [List.append_assoc]
  · rw [fnView, fnView, hu, hd]
    have h1 : (st.unique_emails ++ [e]).map EmailInfo.filename ++
          st.duplicates.map DupRecord.duplicate_file
        = st.unique_emails.map EmailInfo.filename ++
            ([e.filename] ++ st.duplicates.map DupRecord.duplicate_file) := by
      simp [List.append_assoc]
    have h2 : (st.unique_emails.map EmailInfo.filename ++
          ([e.filename] ++ st.duplicates.map DupRecord.duplicate_file)).Perm
        (st.unique_emails.map EmailInfo.filename ++
          (st.duplicates.map DupRecord.duplicate_file ++ [e.filename])) :=
      List.Perm.append_left _ List.perm_append_comm
    rw [h1, List.append_assoc]
    exact h2

theorem fnView_fold (es : List EmailInfo) :
    ∀ st : DedupState,
      (fnView (es.foldl dedupStep st)).Perm (fnView st ++ es.map EmailInfo.filename) := by
  induction es with
  | nil => intro st; simp
  | cons e t ih =>
    intro st
    rw [List.foldl_cons]
    have h1 := ih (dedupStep st e)
    have h2 := (fnView_step st e).append_right (t.map EmailInfo.filename)
    have h3 : (fnView st ++ [e.filename]) ++ t.map EmailInfo.filename
        = fnView st ++ (e :: t).map EmailInfo.filename := by
      simp [List.append_assoc]
    rw [h3] at h2
    exact h1.trans h2

/-- The survivors' and duplicates' filename multiset of a `find_duplicates`
run is exactly the input filename multiset. -/
theorem find_duplicates_filenames_perm (es : List EmailInfo) :
    ((find_duplicates es).1.map EmailInfo.filename ++
      (find_duplicates es).2.map DupRecord.duplicate_file).Perm
      (es.map EmailInfo.filename) := by
  have h1 := fnView_fold (sortByCleanedLen es) ⟨[], [], [], []⟩
  have h2 : ((sortByCleanedLen es).map EmailInfo.filename).Perm
      (es.map EmailInfo.filename) :=
    (List.perm_insertionSort lenGe es).map EmailInfo.filename
  have h0 : fnView (dedupFold es) = (find_duplicates es).1.map EmailInfo.filename ++
      (find_duplicates es).2.map DupRecord.duplicate_file := rfl
  rw [← h0]
  have h3 : fnView (⟨[], [], [], []⟩ : DedupState) ++
      (sortByCleanedLen es).map EmailInfo.filename
      = (sortByCleanedLen es).map EmailInfo.filename := by simp [fnView]
  rw [h3] at h1
  exact h1.trans h2

/-- The duplicate-absorption view: concatenation of the survivors'
`contained_files` on the left, the duplicates' filenames on the right. -/
def cdView (st : DedupState) : List String × List String :=
  ((st.unique_emails.map EmailInfo.contained_files).flatten,
    st.duplicates.map DupRecord.duplicate_file)

theorem cdView_step (st : DedupState) (e : EmailInfo)
    (he : e.contained_files = [])
    (hinv : (cdView st).1.Perm (cdView st).2) :
    (cdView (dedupStep st e)).1.Perm (cdView (dedupStep st e)).2 := by
  simp only [cdView] at hinv ⊢
  rcases dedupStep_shape st e with ⟨j, hj, hu, hd⟩ | ⟨hu, hd⟩
  · rw [hu, hd]
    have h1 := flatten_contained_set st.unique_emails j e.filename hj
    have h2 := hinv.append_right [e.filename]
    simp only [List.map_append, List.map_cons, List.map_nil]
    exact h1.trans h2
  · rw [hu, hd]
    simpa [he] using hinv

theorem cdView_fold (es : List EmailInfo) :
    ∀ st : DedupState, (∀ e ∈ es, e.contained_files = []) →
      (cdView st).1.Perm (cdView st).2 →
      (cdView (es.foldl dedupStep st)).1.Perm (cdView (es.foldl dedupStep st)).2 := by
  induction es with
  | nil => intro st _ h; simpa using h
  | cons e t ih =>
    intro st hall h
    rw [List.foldl_cons]
    exact ih _ (fun x hx => hall x (List.mem_cons_of_mem _ hx))
      (cdView_step st e (hall e (List.mem_cons_self _ _)) h)

/-- Claim C2 (confirmed): on a batch of freshly parsed records (empty
`contained_files`), `find_duplicates` partitions the input — the survivors'
filenames together with the duplicates' filenames are a permutation of the
input filenames (so every record ends up in exactly one of the two lists and
never in both), the filenames absorbed into survivors' `contained_files`
lists are exactly the duplicates' filenames, and the survivor count plus
the duplicate count equals the input count. -/
theorem C2_partition (es : List EmailInfo)
    (h : ∀ e ∈ es, e.contained_files = []) :
    ((find_duplicates es).1.map EmailInfo.filename ++
      (find_duplicates es).2.map DupRecord.duplicate_file).Perm
      (es.map EmailInfo.filename) ∧
    (((find_duplicates es).1.map EmailInfo.contained_files).flatten).Perm
      ((find_duplicates es).2.map DupRecord.duplicate_file) ∧
    (find_duplicates es).1.length + (find_duplicates es).2.length = es.length := by
  refine ⟨find_duplicates_filenames_perm es, ?_, ?_⟩
  · have hall : ∀ e ∈ sortByCleanedLen es, e.contained_files = [] := by
      intro e he
      exact h e ((List.perm_insertionSort lenGe es).mem_iff.mp he)
    have := cdView_fold (sortByCleanedLen es) ⟨[], [], [], []⟩ hall (by simp [cdView])
    exact this
  · have := (find_duplicates_filenames_perm es).length_eq
    simpa using this

/-- Witness discharging C2's hypothesis on a concrete three-record batch. -/
theorem C2_witness :
    (∀ e ∈ [witA, witB, witC], e.contained_files = []) ∧
    (((find_duplicates [witA, witB, witC]).1.map EmailInfo.filename ++
      (find_duplicates [witA, witB, witC]).2.map DupRecord.duplicate_file).Perm
      ([witA, witB, witC].map EmailInfo.filename) ∧
    (((find_duplicates [witA, witB, witC]).1.map EmailInfo.contained_files).flatten).Perm
      ((find_duplicates [witA, witB, witC]).2.map DupRecord.duplicate_file) ∧
    (find_duplicates [witA, witB, witC]).1.length +
      (find_duplicates [witA, witB, witC]).2.length = 3) :=
  ⟨by decide, C2_partition [witA, witB, witC] (by decide)⟩

/-! Part: C8: the sliding-window cache and its eviction -/

theorem normalizeText_cContent (i : Nat) : normalizeText (cContent i) = cContent i := by
  have ha1 : pyLowerChar 'a' = 'a' := by decide
  have hb1 : pyLowerChar 'b' = 'b' := by decide
  have ha2 : pyIsSpace 'a' = false := by decide
  have hb2 : pyIsSpace 'b' = false := by decide
  have hrep : ∀ n : Nat,
      (List.replicate n 'a').filter (fun c => !(pyIsSpace c)) = List.replicate n 'a' := by
    intro n
    induction n with
    | zero => rfl
    | succ m ih => rw [List.replicate_succ, List.filter_cons]; simp [ha2, ih]
  rw [cContent, normalizeText, pyLower, List.map_cons, List.map_append,
    List.map_replicate, ha1, hb1, List.filter_cons, List.filter_append, hrep]
  simp [ha2, hb2, hb1]

theorem cContent_length (i : Nat) : (cContent i).length = i + 2 := by
  simp [cContent]

theorem cContent_inj {i j : Nat} (h : cContent i = cContent j) : i = j := by
  have := congrArg List.length h
  rw [cContent_length, cContent_length] at this
  omega

theorem subSeg_cContent_false {i j : Nat} (hij : i < j) :
    subSeg (cContent i) (cContent j) = false := by
  rw [Bool.eq_false_iff]
  intro h
  rw [subSeg_iff] at h
  obtain ⟨s, t, hst⟩ := h
  have hcnt := congrArg (List.count 'b') hst
  have hb : List.count 'b' (cContent i) = 2 := by
    simp [cContent, List.count_cons, List.count_append, List.count_replicate]
  have hbj : List.count 'b' (cContent j) = 2 := by
    simp [cContent, List.count_cons, List.count_append, List.count_replicate]
  rw [List.count_append, List.count_append, hb, hbj] at hcnt
  have hs0 : List.count 'b' s = 0 := by omega
  cases s with
  | cons c s' =>
    have hc : c = 'b' := by
      have := hst
      rw [List.cons_append, List.cons_append] at this
      rw [cContent] at this
      exact (List.cons.injEq _ _ _ _).mp this |>.1
    rw [hc] at hs0
    simp [List.count_cons] at hs0
  | nil =>
    rw [List.nil_append] at hst
    rw [cContent, cContent, List.cons_append] at hst
    have htail : (List.replicate i 'a' ++ ['b']) ++ t = List.replicate j 'a' ++ ['b'] :=
      ((List.cons.injEq _ _ _ _).mp hst).2
    have hq := congrArg (fun l => l[i]?) htail
    simp only at hq
    have hL : ((List.replicate i 'a' ++ ['b']) ++ t)[i]? = some 'b' := by
      rw [List.append_assoc, List.singleton_append, List.getElem?_append]
      rw [if_neg (by simp)]
      simp
    have hR : (List.replicate j 'a' ++ ['b'])[i]? = some 'a' := by
      rw [List.getElem?_append]
      rw [if_pos (by simp [hij])]
      rw [List.getElem?_eq_getElem (by simp [hij])]
      simp
    rw [hL, hR] at hq
    simp at hq

theorem cex8cache_succ (n : Nat) :
    cex8cache (n + 1) = (n, cContent (150 - n)) :: cex8cache n := by
  simp [cex8cache, List.range_succ]

theorem cex8cache_lookup : ∀ {n j : Nat}, j < n →
    (cex8cache n).lookup j = some (cContent (150 - j)) := by
  intro n
  induction n with
  | zero => intro j hj; omega
  | succ m ih =>
    intro j hj
    rw [cex8cache_succ]
    by_cases hjm : j = m
    · subst hjm
      simp [List.lookup]
    · have hlt : j < m := by omega
      have hb : (j == m) = false := by simp [hjm]
      simp only [List.lookup, hb]
      exact ih hlt

theorem cex8cache_length (n : Nat) : (cex8cache n).length = n := by
  simp [cex8cache]

theorem cex8hashes_not_mem {n : Nat} (hn : n ≤ 150) :
    cContent (150 - n) ∉ cex8hashes n := by
  intro hm
  rw [cex8hashes] at hm
  obtain ⟨k, hk, heq⟩ := List.mem_map.mp hm
  rw [List.mem_range] at hk
  have := cContent_inj heq
  omega

theorem containLoop_none (uniques : List EmailInfo) (cur : List Char) :
    ∀ (fuel i : Nat) (cache : List (Nat × List Char)),
      (∀ k, k < fuel → ∃ v, cache.lookup (uniques.length - (i + k + 1)) = some v ∧
        ¬ (0 < cur.length ∧ cur.length ≤ v.length ∧ subSeg cur v = true)) →
      containLoop uniques cur fuel i cache = (none, cache) := by
  intro fuel
  induction fuel with
  | zero => intro i cache _; rfl
  | succ m ih =>
    intro i cache hall
    obtain ⟨v, hv, hnc⟩ := hall 0 (Nat.succ_pos m)
    rw [containLoop]
    simp only [hv]
    rw [if_neg (by simpa using hnc)]
    exact ih (i + 1) cache (fun k hk => by
      have := hall (k + 1) (by omega)
      simpa [Nat.add_assoc, Nat.add_comm, Nat.add_left_comm] using this)

theorem cex8hashes_succ (n : Nat) :
    cex8hashes (n + 1) = cex8hashes n ++ [cContent (150 - n)] := by
  rw [cex8hashes, cex8hashes, List.range_succ, List.map_append, List.map_singleton]

theorem cex8emails_succ (n : Nat) :
    (List.range (n + 1)).map cex8email = (List.range n).map cex8email ++ [cex8email n] := by
  rw [List.range_succ, List.map_append, List.map_singleton]

theorem cex8_scan (n : Nat) (hn : n ≤ 150) :
    scanDup (cex8state n) (cContent (150 - n)) = (none, cex8cache n) := by
  have hmem : cContent (150 - n) ∉ (cex8state n).unique_hashes := by
    simpa [cex8state] using cex8hashes_not_mem hn
  have hloop : ∀ fuel,
      fuel ≤ n →
      containLoop ((List.range n).map cex8email) (cContent (150 - n))
        fuel 0 (cex8cache n) = (none, cex8cache n) := by
    intro fuel hfuel
    apply containLoop_none
    intro k hk
    have hlen : ((List.range n).map cex8email).length = n := by simp
    rw [hlen]
    have hkn : k < n := by omega
    have hjn : n - (0 + k + 1) < n := by omega
    refine ⟨cContent (150 - (n - (0 + k + 1))), cex8cache_lookup hjn, ?_⟩
    rintro ⟨-, -, hsub⟩
    rw [subSeg_cContent_false (by omega)] at hsub
    exact Bool.false_ne_true hsub
  rw [scanDup, if_neg hmem]
  show containLoop ((List.range n).map cex8email) (cContent (150 - n))
      (min ((List.range n).map cex8email).length 100) 0 (cex8cache n) =
      (none, cex8cache n)
  exact hloop _ (by simp [Nat.min_le_left])

theorem cex8_step (n : Nat) (hn : n < 150) :
    dedupStep (cex8state n) (cex8email n) = cex8state (n + 1) := by
  have hcur : normalizeText (cex8email n).cleaned_content = cContent (150 - n) :=
    normalizeText_cContent _
  simp only [dedupStep, hcur, cex8_scan n (Nat.le_of_lt hn)]
  rw [applyEvict]
  rw [if_neg (by
    show ¬ 150 < (((cex8state n).unique_emails.length, cContent (150 - n)) ::
      cex8cache n).length
    simp [cex8state, cex8cache_length]
    omega)]
  simp only [cex8state]
  rw [DedupState.mk.injEq]
  refine ⟨(cex8emails_succ n).symm, rfl, ?_, (cex8hashes_succ n).symm⟩
  rw [cex8cache_succ]
  simp [cex8state]

theorem cex8_final_step :
    dedupStep (cex8state 150) (cex8email 150) = cex8finalState := by
  have hcur : normalizeText (cex8email 150).cleaned_content = cContent (150 - 150) :=
    normalizeText_cContent _
  simp only [dedupStep, hcur, cex8_scan 150 le_rfl]
  rw [applyEvict]
  rw [if_pos (by
    show 150 < (((cex8state 150).unique_emails.length, cContent (150 - 150)) ::
      cex8cache 150).length
    simp [cex8state, cex8cache_length])]
  rw [DedupState.mk.injEq]
  refine ⟨?_, rfl, ?_, ?_⟩
  · show (cex8state 150).unique_emails ++ [cex8email 150] = cex8finalState.unique_emails
    exact (cex8emails_succ 150).symm
  · show evictOldest (((cex8state 150).unique_emails.length, cContent (150 - 150)) ::
      cex8cache 150) = cex8finalState.unique_normalized
    have hlen150 : (cex8state 150).unique_emails.length = 150 := by simp [cex8state]
    rw [hlen150]
    have hcons : ((150 : Nat), cContent (150 - 150)) :: cex8cache 150 = cex8cache 151 :=
      (cex8cache_succ 150).symm
    rw [hcons]
    rw [evictOldest]
    have hkeys : (cex8cache 151).map Prod.fst = (List.range 151).reverse := by
      rw [cex8cache, List.map_map]
      exact List.map_id _
    rw [hkeys]
    have hsorted :
        List.insertionSort (fun a b => a ≤ b) ((List.range 151).reverse) =
          List.range 151 := by decide
    rw [hsorted]
    have htake : (List.range 151).take 50 = List.range 50 := by decide
    rw [htake]
    rw [cex8cache, List.filter_map]
    have hfr : ((List.range 151).reverse.filter
          ((fun p : Nat × List Char => decide (p.fst ∉ List.range 50)) ∘
            fun k => (k, cContent (150 - k)))) =
        ((List.range 151).filter (fun k => decide (k ∉ List.range 50))).reverse := by
      rw [← List.filter_reverse]
      rfl
    rw [hfr]
    have hfil : (List.range 151).filter (fun k => decide (k ∉ List.range 50)) =
        List.range' 50 101 := by decide
    rw [hfil, cex8finalState]
  · show (cex8state 150).unique_hashes ++ [cContent (150 - 150)] =
      cex8finalState.unique_hashes
    exact (cex8hashes_succ 150).symm

theorem cex8_fold : ∀ n : Nat, n ≤ 150 →
    ((List.range n).map cex8email).foldl dedupStep ⟨[], [], [], []⟩ = cex8state n := by
  intro n
  induction n with
  | zero => intro _; rfl
  | succ m ih =>
    intro hm
    rw [List.range_succ, List.map_append, List.foldl_append, ih (by omega)]
    simp only [List.map_cons, List.map_nil, List.foldl_cons, List.foldl_nil]
    exact cex8_step m (by omega)

theorem cex8_sorted : sortByCleanedLen cex8emails = cex8emails := by
  rw [sortByCleanedLen]
  apply List.Sorted.insertionSort_eq
  rw [cex8emails, List.Sorted, List.pairwise_map]
  apply (List.pairwise_lt_range 151).imp
  intro a b hab
  rw [lenGe]
  show (cContent (150 - b)).length ≤ (cContent (150 - a)).length
  rw [cContent_length, cContent_length]
  omega

theorem cex8_run : dedupFold cex8emails = cex8finalState := by
  rw [dedupFold, cex8_sorted, cex8emails]
  have h151 : List.range 151 = List.range 150 ++ [150] := by decide
  rw [h151, List.map_append, List.foldl_append, cex8_fold 150 le_rfl]
  simp only [List.map_cons, List.map_nil, List.foldl_cons, List.foldl_nil]
  exact cex8_final_step

/-- Claim C8 as frozen is false: in the 151-record run `cex8emails`, the
tracked-normalized-text cache reaches exactly 150 entries after 150 records,
the 151st record pushes it to 151 (greater than 150, triggering the
eviction), and the eviction deletes only the 50 oldest entries — so 101
entries remain immediately after the eviction, not the claimed 100. -/
theorem C8_counterexample :
    (((List.range 150).map cex8email).foldl dedupStep
        ⟨[], [], [], []⟩).unique_normalized.length = 150 ∧
    (dedupFold cex8emails).unique_emails.length = 151 ∧
    (dedupFold cex8emails).unique_normalized.length = 101 := by
  refine ⟨?_, ?_, ?_⟩
  · rw [cex8_fold 150 le_rfl]
    simp [cex8state, cex8cache_length]
  · rw [cex8_run]
    simp [cex8finalState]
  · rw [cex8_run]
    simp [cex8finalState]

theorem length_filter_not_add (l : List (Nat × List Char)) (p : Nat × List Char → Bool) :
    (l.filter p).length + (l.filter (fun a => !(p a))).length = l.length := by
  induction l with
  | nil => rfl
  | cons a t ih =>
    cases hp : p a <;> simp [List.filter_cons, hp] <;> omega

/-- Claim C8 (corrected): when the tracked-normalized-text cache holds more
than 150 entries at the end of an iteration, the eviction removes exactly
the 50 entries whose keys are the 50 smallest (the oldest unique-email
indices), keeping every other entry — so the cache shrinks by 50 (to 101
entries at the first eviction, which fires at 151), not to 100. -/
theorem C8_amended (cache : List (Nat × List Char))
    (hnd : (cache.map Prod.fst).Nodup) (hlen : 150 < cache.length) :
    (evictOldest cache).length = cache.length - 50 ∧
    ∀ p : Nat × List Char,
      p ∈ evictOldest cache ↔
        p ∈ cache ∧
          p.fst ∉
            (List.insertionSort (fun a b => a ≤ b) (cache.map Prod.fst)).take 50 := by
  have hSperm : (List.insertionSort (fun a b => a ≤ b) (cache.map Prod.fst)).Perm
      (cache.map Prod.fst) := List.perm_insertionSort _ _
  have hSnd : (List.insertionSort (fun a b => a ≤ b) (cache.map Prod.fst)).Nodup :=
    hSperm.nodup_iff.mpr hnd
  have hTnd : ((List.insertionSort (fun a b => a ≤ b)
      (cache.map Prod.fst)).take 50).Nodup :=
    hSnd.sublist (List.take_sublist _ _)
  have hTsub : ∀ k ∈ (List.insertionSort (fun a b => a ≤ b)
      (cache.map Prod.fst)).take 50, k ∈ cache.map Prod.fst := by
    intro k hk
    exact hSperm.mem_iff.mp (List.take_subset _ _ hk)
  have hTlen : ((List.insertionSort (fun a b => a ≤ b)
      (cache.map Prod.fst)).take 50).length = 50 := by
    rw [List.length_take]
    have h1 := hSperm.length_eq
    rw [List.length_map] at h1
    omega
  constructor
  · have hsplit := length_filter_not_add cache (fun q =>
      decide (q.fst ∈ (List.insertionSort (fun a b => a ≤ b)
        (cache.map Prod.fst)).take 50))
    have hmapf : (cache.filter (fun q =>
        decide (q.fst ∈ (List.insertionSort (fun a b => a ≤ b)
          (cache.map Prod.fst)).take 50))).map Prod.fst =
        (cache.map Prod.fst).filter (fun k =>
          decide (k ∈ (List.insertionSort (fun a b => a ≤ b)
            (cache.map Prod.fst)).take 50)) := by
      have h := (List.filter_map (p := fun k =>
        decide (k ∈ (List.insertionSort (fun a b => a ≤ b)
          (cache.map Prod.fst)).take 50)) Prod.fst cache).symm
      exact h
    have hFnd : ((cache.map Prod.fst).filter (fun k =>
        decide (k ∈ (List.insertionSort (fun a b => a ≤ b)
          (cache.map Prod.fst)).take 50))).Nodup :=
      hnd.sublist (List.filter_sublist _)
    have hFperm : ((cache.map Prod.fst).filter (fun k =>
        decide (k ∈ (List.insertionSort (fun a b => a ≤ b)
          (cache.map Prod.fst)).take 50))).Perm
        ((List.insertionSort (fun a b => a ≤ b) (cache.map Prod.fst)).take 50) := by
      rw [List.perm_ext_iff_of_nodup hFnd hTnd]
      intro a
      simp only [List.mem_filter, decide_eq_true_eq]
      exact ⟨fun h => h.2, fun h => ⟨hTsub a h, h⟩⟩
    have hF50 : ((cache.map Prod.fst).filter (fun k =>
        decide (k ∈ (List.insertionSort (fun a b => a ≤ b)
          (cache.map Prod.fst)).take 50))).length = 50 :=
      hFperm.length_eq.trans hTlen
    have hC50 : (cache.filter (fun q =>
        decide (q.fst ∈ (List.insertionSort (fun a b => a ≤ b)
          (cache.map Prod.fst)).take 50))).length = 50 := by
      have := congrArg List.length hmapf
      rw [List.length_map] at this
      omega
    have hform : evictOldest cache = cache.filter (fun q =>
        !(decide (q.fst ∈ (List.insertionSort (fun a b => a ≤ b)
          (cache.map Prod.fst)).take 50))) := by
      rw [evictOldest]
      simp [decide_not]
    rw [hform]
    omega
  · intro p
    rw [evictOldest]
    simp [List.mem_filter]

/-- Witness discharging C8's hypotheses on a concrete 151-entry cache. -/
theorem C8_witness :
    (wit8cache.map Prod.fst).Nodup ∧ 150 < wit8cache.length ∧
    ((evictOldest wit8cache).length = wit8cache.length - 50 ∧
    ∀ p : Nat × List Char,
      p ∈ evictOldest wit8cache ↔
        p ∈ wit8cache ∧
          p.fst ∉
            (List.insertionSort (fun a b => a ≤ b) (wit8cache.map Prod.fst)).take 50) :=
  ⟨by decide, by decide, C8_amended wit8cache (by decide) (by decide)⟩

/-! Part: C9: the technical-header skip region of `clean_content` -/

theorem dropWhile_shape (p : Char → Bool) (s : List Char) :
    s.dropWhile p = [] ∨
      ∃ c t, s.dropWhile p = c :: t ∧ p c = false := by
  induction s with
  | nil => exact Or.inl rfl
  | cons a t ih =>
    rw [List.dropWhile_cons]
    by_cases hp : p a = true
    · simpa [hp] using ih
    · right
      refine ⟨a, t, ?_, by simpa using hp⟩
      simp [hp]

theorem dropWhile_append_single (p : Char → Bool) (c : Char) (hc : p c = false) :
    ∀ xs : List Char, (xs ++ [c]).dropWhile p = xs.dropWhile p ++ [c] := by
  intro xs
  induction xs with
  | nil => simp [List.dropWhile_cons, hc]
  | cons x t ih =>
    rw [List.cons_append, List.dropWhile_cons, List.dropWhile_cons]
    by_cases hx : p x = true
    · simp [hx, ih]
    · simp [hx]

theorem dropTrailing_cons (p : Char → Bool) (c : Char) (t : List Char)
    (hc : p c = false) : dropTrailing p (c :: t) = c :: dropTrailing p t := by
  rw [dropTrailing, dropTrailing, List.reverse_cons,
    dropWhile_append_single p c hc, List.reverse_append]
  rfl

theorem pyStrip_no_leading_space {l : List Char} (h : pyStrip l ≠ []) :
    startsWithSeg [' '] (pyStrip l) = false := by
  rcases dropWhile_shape pyIsSpace l with hnil | ⟨c, t, heq, hc⟩
  · exfalso
    apply h
    rw [pyStrip, hnil]
    rfl
  · rw [pyStrip, heq, dropTrailing_cons pyIsSpace c t hc]
    have hcs : c ≠ ' ' := by
      intro he
      rw [he] at hc
      exact absurd hc (by decide)
    simp [startsWithSeg, hcs, Ne.symm hcs]

theorem stripTechLoop_no_tech :
    ∀ (lines : List (List Char)) (skip : Bool),
      ∀ m ∈ stripTechLoop skip lines, isTechLine m = false := by
  intro lines
  induction lines with
  | nil => intro skip m hm; simp [stripTechLoop] at hm
  | cons a ls ih =>
    intro skip m hm
    by_cases ht : isTechLine (pyStrip a) = true
    · rw [stripTechLoop, if_pos ht] at hm
      exact ih true m hm
    · rw [stripTechLoop, if_neg ht] at hm
      simp only [] at hm
      cases hs2 : (if skip && !(pyStrip a).isEmpty && !startsWithSeg [' '] (pyStrip a)
          then false else skip) with
      | false =>
        rw [hs2] at hm
        simp only [Bool.false_eq_true, if_false] at hm
        rcases List.mem_cons.mp hm with hm1 | hm2
        · rw [hm1]
          simpa using ht
        · exact ih false m hm2
      | true =>
        rw [hs2] at hm
        simp only [if_true] at hm
        exact ih true m hm

theorem stripTechLoop_keeps :
    ∀ (lines : List (List Char)) (skip : Bool) (l : List Char),
      l ∈ lines → pyStrip l ≠ [] → isTechLine (pyStrip l) = false →
      pyStrip l ∈ stripTechLoop skip lines := by
  intro lines
  induction lines with
  | nil => intro skip l hl; simp at hl
  | cons a ls ih =>
    intro skip l hl hne hnt
    rcases List.mem_cons.mp hl with rfl | hmem
    · rw [stripTechLoop, if_neg (by simp [hnt])]
      have hskip2 :
          (if skip && !(pyStrip l).isEmpty && !startsWithSeg [' '] (pyStrip l)
            then false else skip) = false := by
        cases skip with
        | false => simp
        | true =>
          rw [if_pos]
          simp only [Bool.true_and]
          rw [pyStrip_no_leading_space hne]
          simp [List.isEmpty_eq_true, hne]
      simp only [hskip2]
      simp
    · by_cases ht : isTechLine (pyStrip a) = true
      · rw [stripTechLoop, if_pos ht]
        exact ih true l hmem hne hnt
      · rw [stripTechLoop, if_neg ht]
        simp only []
        cases hs2 : (if skip && !(pyStrip a).isEmpty && !startsWithSeg [' '] (pyStrip a)
            then false else skip) with
        | false =>
          simp only [Bool.false_eq_true, if_false]
          exact List.mem_cons_of_mem _ (ih false l hmem hne hnt)
        | true =>
          simp only [if_true]
          exact ih true l hmem hne hnt

/-- Claim C9 as frozen is false: each line is stripped *before* the checks
(email_cleaner.py line 138), so a non-empty header continuation line
beginning with whitespace is not swallowed — it ends the skip region and is
kept (stripped).  On `"Received: x\n\tby relay\nBody"` the continuation
line `"\tby relay"` survives as `"by relay"`, while the claim predicts it
is removed. -/
theorem C9_counterexample :
    clean_content ("Received: x\n\tby relay\nBody".data) = ("by relay\nBody").data ∧
      clean_content ("Received: x\n\tby relay\nBody".data) ≠ ("Body").data := by
  constructor
  · decide
  · decide

/-- Claim C9 (corrected): a line whose stripped form begins with a
technical prefix starts a skip region and is dropped; because every line is
stripped before the tests, the region ends at the first following line that
is non-empty after stripping — such a line is kept (stripped) even when it
originally began with whitespace, so header continuation lines are NOT
swallowed; only whitespace-only lines are dropped while the region is
active, and no line of the output begins with a technical prefix. -/
theorem C9_amended (skip : Bool) (lines : List (List Char)) (l : List Char)
    (hmem : l ∈ lines) (hne : pyStrip l ≠ [])
    (hnt : isTechLine (pyStrip l) = false) :
    pyStrip l ∈ stripTechLoop skip lines ∧
      ∀ m ∈ stripTechLoop skip lines, isTechLine m = false :=
  ⟨stripTechLoop_keeps lines skip l hmem hne hnt,
    stripTechLoop_no_tech lines skip⟩

/-- Witness for C9 (corrected): a continuation line beginning with a tab,
inside an active skip region, is kept. -/
theorem C9_witness :
    ("\tby relay".data ∈ ["\tby relay".data]) ∧
      pyStrip ("\tby relay".data) ≠ [] ∧
      isTechLine (pyStrip ("\tby relay".data)) = false ∧
      (pyStrip ("\tby relay".data) ∈ stripTechLoop true ["\tby relay".data] ∧
        ∀ m ∈ stripTechLoop true ["\tby relay".data], isTechLine m = false) :=
  ⟨by decide, by decide, by decide,
    C9_amended true ["\tby relay".data] ("\tby relay".data)
      (by decide) (by decide) (by decide)⟩

/-! Part: C4: cross-batch exclusion via the Global Ledger -/

theorem lookup_append_of_some {l : List (String × LedgerEntry)} {n : String}
    {e : LedgerEntry} (h : l.lookup n = some e) (l2 : List (String × LedgerEntry)) :
    (l ++ l2).lookup n = some e := by
  induction l with
  | nil => simp [List.lookup] at h
  | cons kv t ih =>
    rcases kv with ⟨k, v⟩
    rw [List.cons_append]
    cases hk : n == k with
    | true => simpa [List.lookup, hk] using h
    | false =>
      rw [List.lookup, hk] at h
      simpa [List.lookup, hk] using ih h

theorem lookup_append_none {l : List (String × LedgerEntry)} {n k : String}
    {v : LedgerEntry} (h : l.lookup n = none) (hk : n ≠ k) :
    (l ++ [(k, v)]).lookup n = none := by
  have hbk : (n == k) = false := by simp [hk]
  induction l with
  | nil => simp [List.lookup, hbk]
  | cons kv t ih =>
    rcases kv with ⟨k2, v2⟩
    cases hk2 : n == k2 with
    | true => simp [List.lookup, hk2] at h
    | false =>
      rw [List.lookup, hk2] at h
      simpa [List.lookup, hk2] using ih h

theorem parseStep_mono (b t : String) (st : ParseState) (f : String × Option EmailInfo) :
    (∀ g ∈ st.global_duplicates, g ∈ (parseStep b t st f).global_duplicates) ∧
    (∀ i ∈ st.emails, i ∈ (parseStep b t st f).emails) ∧
    (∀ x ∈ st.failed_files, x ∈ (parseStep b t st f).failed_files) := by
  rw [parseStep]
  split
  · exact ⟨fun g hg => List.mem_append_left _ hg, fun i hi => hi, fun x hx => hx⟩
  · split
    · exact ⟨fun g hg => hg, fun i hi => List.mem_append_left _ hi, fun x hx => hx⟩
    · exact ⟨fun g hg => hg, fun i hi => hi, fun x hx => List.mem_append_left _ hx⟩

theorem parseFold_mono (b t : String) (files : List (String × Option EmailInfo)) :
    ∀ st : ParseState,
      (∀ g ∈ st.global_duplicates,
        g ∈ (files.foldl (parseStep b t) st).global_duplicates) ∧
      (∀ i ∈ st.emails, i ∈ (files.foldl (parseStep b t) st).emails) ∧
      (∀ x ∈ st.failed_files, x ∈ (files.foldl (parseStep b t) st).failed_files) := by
  induction files with
  | nil => exact fun st => ⟨fun g hg => hg, fun i hi => hi, fun x hx => hx⟩
  | cons f fs ih =>
    intro st
    have h1 := parseStep_mono b t st f
    have h2 := ih (parseStep b t st f)
    refine ⟨?_, ?_, ?_⟩ <;> intro y hy <;> rw [List.foldl_cons]
    · exact h2.1 y (h1.1 y hy)
    · exact h2.2.1 y (h1.2.1 y hy)
    · exact h2.2.2 y (h1.2.2 y hy)

theorem parseStep_ledger_stable {st : ParseState} {n : String} {e : LedgerEntry}
    (b t : String) (f : String × Option EmailInfo)
    (h : ledgerLookup st.ledger n = some e) :
    ledgerLookup (parseStep b t st f).ledger n = some e := by
  rw [parseStep]
  split
  · exact h
  · split
    · exact lookup_append_of_some h _
    · exact h

theorem parseFold_ledger_stable (b t : String)
    (files : List (String × Option EmailInfo)) :
    ∀ (st : ParseState) (n : String) (e : LedgerEntry),
      ledgerLookup st.ledger n = some e →
      ledgerLookup ((files.foldl (parseStep b t) st).ledger) n = some e := by
  induction files with
  | nil => exact fun st n e h => h
  | cons f fs ih =>
    intro st n e h
    rw [List.foldl_cons]
    exact ih _ n e (parseStep_ledger_stable b t f h)

theorem parseFold_skip (b t : String) (files : List (String × Option EmailInfo)) :
    ∀ (st : ParseState) (n : String) (e : LedgerEntry),
      ledgerLookup st.ledger n = some e → n ∈ files.map Prod.fst →
      (⟨n, e.batch_id, e.processed_at⟩ : GlobalDup) ∈
        (files.foldl (parseStep b t) st).global_duplicates := by
  induction files with
  | nil => intro st n e _ hmem; simp at hmem
  | cons f fs ih =>
    intro st n e hl hmem
    rw [List.foldl_cons]
    rw [List.map_cons] at hmem
    rcases List.mem_cons.mp hmem with heq | hmem2
    · have hthis : ledgerLookup st.ledger f.fst = some e := by rw [← heq]; exact hl
      have hstep : (⟨n, e.batch_id, e.processed_at⟩ : GlobalDup) ∈
          (parseStep b t st f).global_duplicates := by
        rw [parseStep, hthis]
        show (⟨n, e.batch_id, e.processed_at⟩ : GlobalDup) ∈
          st.global_duplicates ++ [⟨f.fst, e.batch_id, e.processed_at⟩]
        rw [heq]
        exact List.mem_append_right _ (List.mem_singleton.mpr rfl)
      exact (parseFold_mono b t fs _).1 _ hstep
    · exact ih _ n e (parseStep_ledger_stable b t f hl) hmem2

theorem parseFold_email_names (b t : String)
    (files : List (String × Option EmailInfo)) :
    ∀ (st : ParseState) (n : String) (e : LedgerEntry),
      ledgerLookup st.ledger n = some e →
      (∀ p ∈ files, ∀ i : EmailInfo, p.snd = some i → i.filename = p.fst) →
      n ∉ st.emails.map EmailInfo.filename →
      n ∉ ((files.foldl (parseStep b t) st).emails).map EmailInfo.filename := by
  induction files with
  | nil => exact fun st n e _ _ h => h
  | cons f fs ih =>
    intro st n e hl hfn hnot
    rw [List.foldl_cons]
    have hstable := parseStep_ledger_stable b t f hl
    apply ih _ n e hstable (fun p hp => hfn p (List.mem_cons_of_mem _ hp))
    rcases hlk : ledgerLookup st.ledger f.fst with _ | entry
    · rcases hfs : f.snd with _ | info
      · rw [parseStep, hlk, hfs]
        exact hnot
      · rw [parseStep, hlk, hfs]
        show n ∉ (st.emails ++ [info]).map EmailInfo.filename
        rw [List.map_append]
        intro hin
        rcases List.mem_append.mp hin with h1 | h2
        · exact hnot h1
        · have hfnf : info.filename = f.fst :=
            hfn f (List.mem_cons_self _ _) info hfs
          have hne : n ≠ f.fst := by
            intro hc
            rw [hc] at hl
            rw [hl] at hlk
            cases hlk
          simp only [List.map_cons, List.map_nil, List.mem_singleton] at h2
          exact hne (h2.trans hfnf)
    · rw [parseStep, hlk]
      exact hnot

theorem parseFold_lookup_none (b t : String)
    (files : List (String × Option EmailInfo)) :
    ∀ (st : ParseState) (n : String),
      ledgerLookup st.ledger n = none → n ∉ files.map Prod.fst →
      ledgerLookup ((files.foldl (parseStep b t) st).ledger) n = none := by
  induction files with
  | nil => exact fun st n h _ => h
  | cons f fs ih =>
    intro st n h hnot
    rw [List.foldl_cons]
    have hnf : n ≠ f.fst := by
      intro hc
      exact hnot (by simp [hc])
    have hstep : ledgerLookup (parseStep b t st f).ledger n = none := by
      rw [parseStep]
      split
      · exact h
      · split
        · exact lookup_append_none h hnf
        · exact h
    exact ih _ n hstep (fun hc => hnot (List.mem_cons_of_mem _ hc))

theorem parseFold_miss (b t : String) (files : List (String × Option EmailInfo)) :
    ∀ st : ParseState, (files.map Prod.fst).Nodup →
      ∀ p ∈ files, ledgerLookup st.ledger p.fst = none →
      (∀ i : EmailInfo, p.snd = some i →
        i ∈ (files.foldl (parseStep b t) st).emails) ∧
      (p.snd = none → p.fst ∈ (files.foldl (parseStep b t) st).failed_files) := by
  induction files with
  | nil => intro st _ p hp; simp at hp
  | cons f fs ih =>
    intro st hnd p hp hlook
    rw [List.foldl_cons]
    rcases List.mem_cons.mp hp with rfl | hmem
    · constructor
      · intro i hi
        have hstep : i ∈ (parseStep b t st p).emails := by
          rw [parseStep]
          rw [ledgerLookup] at hlook ⊢
          rw [hlook, hi]
          exact List.mem_append_right _ (by simp)
        exact (parseFold_mono b t fs _).2.1 i hstep
      · intro hnone
        have hstep : p.fst ∈ (parseStep b t st p).failed_files := by
          rw [parseStep]
          rw [ledgerLookup] at hlook ⊢
          rw [hlook, hnone]
          exact List.mem_append_right _ (by simp)
        exact (parseFold_mono b t fs _).2.2 _ hstep
    · have hne : p.fst ≠ f.fst := by
        intro hc
        rw [List.map_cons, List.nodup_cons] at hnd
        exact hnd.1 (hc ▸ (List.mem_map.mpr ⟨p, hmem, rfl⟩))
      have hstep : ledgerLookup (parseStep b t st f).ledger p.fst = none := by
        rw [parseStep]
        split
        · exact hlook
        · split
          · exact lookup_append_none hlook hne
          · exact hlook
      have hnd2 : (fs.map Prod.fst).Nodup := by
        rw [List.map_cons, List.nodup_cons] at hnd
        exact hnd.2
      exact ih _ hnd2 p hmem hstep

/-- Claim C4 (confirmed): in a batch-cleaning run over files with distinct
names (a directory listing) where the parser sets each record's filename to
its file's name, every file whose name has a ledger entry `e` is reported
as a cross-batch duplicate attributed to `e.batch_id`, contributes no
parsed record and no surviving (Markdown-producing) record, and its ledger
entry is left untouched; every file whose name has no ledger entry is
parsed — its record joins the parsed list on success and its name joins the
failed list on failure. -/
theorem C4_global_skip (batch_id now name : String) (e : LedgerEntry)
    (ledger0 : List (String × LedgerEntry))
    (files : List (String × Option EmailInfo))
    (hmem : name ∈ files.map Prod.fst)
    (hled : ledgerLookup ledger0 name = some e)
    (hfn : ∀ p ∈ files, ∀ i : EmailInfo, p.snd = some i → i.filename = p.fst)
    (hnd : (files.map Prod.fst).Nodup) :
    (⟨name, e.batch_id, e.processed_at⟩ : GlobalDup) ∈
        (parseFiles batch_id now ledger0 files).global_duplicates ∧
    name ∉ (parseFiles batch_id now ledger0 files).emails.map EmailInfo.filename ∧
    name ∉ (find_duplicates
        (parseFiles batch_id now ledger0 files).emails).1.map EmailInfo.filename ∧
    ledgerLookup (parseFiles batch_id now ledger0 files).ledger name = some e ∧
    (∀ p ∈ files, ledgerLookup ledger0 p.fst = none →
      (∀ i : EmailInfo, p.snd = some i →
        i ∈ (parseFiles batch_id now ledger0 files).emails) ∧
      (p.snd = none →
        p.fst ∈ (parseFiles batch_id now ledger0 files).failed_files)) := by
  have hinit : ledgerLookup (⟨[], [], [], ledger0⟩ : ParseState).ledger name = some e :=
    hled
  have hnames := parseFold_email_names batch_id now files ⟨[], [], [], ledger0⟩
    name e hinit hfn (by simp)
  refine ⟨?_, hnames, ?_, ?_, ?_⟩
  · exact parseFold_skip batch_id now files _ name e hinit hmem
  · intro hsurv
    apply hnames
    have hperm := find_duplicates_filenames_perm
      (parseFiles batch_id now ledger0 files).emails
    exact hperm.mem_iff.mp (List.mem_append_left _ hsurv)
  · exact parseFold_ledger_stable batch_id now files _ name e hinit
  · intro p hp hpl
    exact parseFold_miss batch_id now files _ hnd p hp hpl

/-- Witness for C4 on a three-file batch: `dup.eml` is in the ledger,
`new.eml` parses, `bad.eml` fails to parse. -/
theorem C4_witness :
    ("dup.eml" ∈ witFiles.map Prod.fst) ∧
    ledgerLookup witLed0 "dup.eml" = some witLedE ∧
    (∀ p ∈ witFiles, ∀ i : EmailInfo, p.snd = some i → i.filename = p.fst) ∧
    (witFiles.map Prod.fst).Nodup ∧
    ((⟨"dup.eml", witLedE.batch_id, witLedE.processed_at⟩ : GlobalDup) ∈
        (parseFiles "batch_Y" "t1" witLed0 witFiles).global_duplicates ∧
    "dup.eml" ∉ (parseFiles "batch_Y" "t1" witLed0 witFiles).emails.map
        EmailInfo.filename ∧
    "dup.eml" ∉ (find_duplicates
        (parseFiles "batch_Y" "t1" witLed0 witFiles).emails).1.map
        EmailInfo.filename ∧
    ledgerLookup (parseFiles "batch_Y" "t1" witLed0 witFiles).ledger "dup.eml" =
        some witLedE ∧
    (∀ p ∈ witFiles, ledgerLookup witLed0 p.fst = none →
      (∀ i : EmailInfo, p.snd = some i →
        i ∈ (parseFiles "batch_Y" "t1" witLed0 witFiles).emails) ∧
      (p.snd = none →
        p.fst ∈ (parseFiles "batch_Y" "t1" witLed0 witFiles).failed_files))) :=
  ⟨by decide, by decide,
    (by
      intro p hp i hi
      simp only [witFiles, List.mem_cons, List.not_mem_nil, or_false] at hp
      rcases hp with rfl | rfl | rfl
      · cases hi; rfl
      · cases hi; rfl
      · cases hi),
    by decide,
    C4_global_skip "batch_Y" "t1" "dup.eml" witLedE witLed0 witFiles
      (by decide) (by decide)
      (by
        intro p hp i hi
        simp only [witFiles, List.mem_cons, List.not_mem_nil, or_false] at hp
        rcases hp with rfl | rfl | rfl
        · cases hi; rfl
        · cases hi; rfl
        · cases hi)
      (by decide)⟩

/-! Part: C5: the cleaned flag and the ledger write -/

/-- Claim C5 as frozen is false: `_save_global_processed` catches any
exception during the write (email_cleaner.py lines 57-58) and merely logs a
warning, so `process_batch` continues and still sets `status.cleaned = true`
(line 457) even when persisting the ledger failed. -/
theorem C5_counterexample :
    ((process_batch "batch_B" "t1" false (some wit5info) wit5files []).batch_info).map
        (fun b2 => b2.status.cleaned) = some true ∧
      (process_batch "batch_B" "t1" false (some wit5info) wit5files []).ledger_saved
        = false := by
  constructor
  · decide
  · decide

/-- Claim C5 (corrected): failure of the ledger write is caught and logged
and does not change the control flow — the run's outcome is the same record
except for the write-success flag, and `cleaned` is set to true regardless;
only a crash (an uncaught termination) before the write would leave the
flag unset. -/
theorem C5_amended (batch_id now : String) (bi : BatchInfo)
    (files : List (String × Option EmailInfo))
    (ledger0 : List (String × LedgerEntry))
    (h1 : bi.status.cleaned = false)
    (h2 : files.length ≠ 0)
    (h3 : (parseFiles batch_id now ledger0 files).emails.length ≠ 0) :
    (∀ writeOk : Bool,
      process_batch batch_id now writeOk (some bi) files ledger0 =
        { process_batch batch_id now true (some bi) files ledger0 with
            ledger_saved := writeOk }) ∧
    ((process_batch batch_id now false (some bi) files ledger0).batch_info).map
        (fun b2 => b2.status.cleaned) = some true := by
  constructor
  · intro writeOk
    simp only [process_batch, h1, Bool.false_eq_true, if_false, processBatchCore,
      if_neg h2, if_neg h3]
  · simp only [process_batch, h1, Bool.false_eq_true, if_false, processBatchCore,
      if_neg h2, if_neg h3]
    simp

/-- Witness for C5 (corrected) on a one-file batch. -/
theorem C5_witness :
    wit5info.status.cleaned = false ∧ wit5files.length ≠ 0 ∧
      (parseFiles "batch_B" "t1" [] wit5files).emails.length ≠ 0 ∧
      ((∀ writeOk : Bool,
        process_batch "batch_B" "t1" writeOk (some wit5info) wit5files [] =
          { process_batch "batch_B" "t1" true (some wit5info) wit5files [] with
              ledger_saved := writeOk }) ∧
      ((process_batch "batch_B" "t1" false (some wit5info) wit5files []).batch_info).map
          (fun b2 => b2.status.cleaned) = some true) :=
  ⟨by decide, by decide, by decide,
    C5_amended "batch_B" "t1" wit5info wit5files [] (by decide) (by decide) (by decide)⟩

/-! Part: C6: administrative reset -/

theorem keys_nodup_inj {l : List (String × LedgerEntry)}
    (hnd : (l.map Prod.fst).Nodup) {p q : String × LedgerEntry}
    (hp : p ∈ l) (hq : q ∈ l) (hk : p.fst = q.fst) : p = q := by
  induction l with
  | nil => simp at hp
  | cons a t ih =>
    rw [List.map_cons, List.nodup_cons] at hnd
    rcases List.mem_cons.mp hp with rfl | hp2
    · rcases List.mem_cons.mp hq with rfl | hq2
      · rfl
      · exact absurd (hk ▸ (List.mem_map.mpr ⟨q, hq2, rfl⟩)) hnd.1
    · rcases List.mem_cons.mp hq with rfl | hq2
      · exact absurd (hk ▸ (List.mem_map.mpr ⟨p, hp2, rfl⟩) : q.fst ∈ t.map Prod.fst)
          hnd.1
      · exact ih hnd.2 hp2 hq2

/-- Claim C6 (confirmed): resetting a batch sets `cleaned`,
`llm_processed` and `uploaded_to_kb` to false while `uploaded` stays true,
drops `kb_name`, leaves the file inventory, `file_count`, `batch_id`,
`custom_label`, `upload_time` and `processing_history` unchanged, and
removes exactly the Global Ledger entries owned by the batch (assuming the
ledger's keys are distinct, the dict invariant). -/
theorem C6_reset (bi : BatchInfo) (ledger : List (String × LedgerEntry))
    (bid : String) (hnd : (ledger.map Prod.fst).Nodup) :
    (reset_batch_info bi).status = ⟨true, false, false, false⟩ ∧
    (reset_batch_info bi).kb_name = none ∧
    (reset_batch_info bi).files = bi.files ∧
    (reset_batch_info bi).file_count = bi.file_count ∧
    (reset_batch_info bi).batch_id = bi.batch_id ∧
    (reset_batch_info bi).custom_label = bi.custom_label ∧
    (reset_batch_info bi).upload_time = bi.upload_time ∧
    (reset_batch_info bi).processing_history = bi.processing_history ∧
    (∀ p : String × LedgerEntry,
      p ∈ removeBatchLedgerEntries ledger bid ↔
        p ∈ ledger ∧ p.snd.batch_id ≠ bid) := by
  refine ⟨rfl, rfl, rfl, rfl, rfl, rfl, rfl, rfl, ?_⟩
  intro p
  rw [removeBatchLedgerEntries]
  simp only [List.mem_filter, decide_eq_true_eq]
  constructor
  · rintro ⟨hpl, hnot⟩
    refine ⟨hpl, ?_⟩
    intro hbid
    apply hnot
    exact List.mem_map.mpr ⟨p, List.mem_filter.mpr ⟨hpl, by simp [hbid]⟩, rfl⟩
  · rintro ⟨hpl, hbid⟩
    refine ⟨hpl, ?_⟩
    intro hmem
    rcases List.mem_map.mp hmem with ⟨q, hq, hqk⟩
    rcases List.mem_filter.mp hq with ⟨hql, hqbid⟩
    have hpq : q = p := keys_nodup_inj hnd hql hpl hqk
    rw [hpq] at hqbid
    exact hbid (by simpa using hqbid)

/-- Witness for C6 on a two-entry ledger with one entry per batch. -/
theorem C6_witness :
    ((wit6ledger.map Prod.fst).Nodup) ∧
    ((reset_batch_info wit6info).status = ⟨true, false, false, false⟩ ∧
    (reset_batch_info wit6info).kb_name = none ∧
    (reset_batch_info wit6info).files = wit6info.files ∧
    (reset_batch_info wit6info).file_count = wit6info.file_count ∧
    (reset_batch_info wit6info).batch_id = wit6info.batch_id ∧
    (reset_batch_info wit6info).custom_label = wit6info.custom_label ∧
    (reset_batch_info wit6info).upload_time = wit6info.upload_time ∧
    (reset_batch_info wit6info).processing_history = wit6info.processing_history ∧
    (∀ p : String × LedgerEntry,
      p ∈ removeBatchLedgerEntries wit6ledger "batch_X" ↔
        p ∈ wit6ledger ∧ p.snd.batch_id ≠ "batch_X")) :=
  ⟨by decide, C6_reset wit6info wit6ledger "batch_X" (by decide)⟩

/-! Part: C10: the upload endpoint never duplicates a stored filename -/

theorem lookup_isSome_iff_mem_keys (d : List (String × String)) (n : String) :
    (∃ b, d.lookup n = some b) ↔ n ∈ d.map Prod.fst := by
  induction d with
  | nil => simp [List.lookup]
  | cons kv t ih =>
    rcases kv with ⟨k, v⟩
    cases hk : n == k with
    | true =>
      have heq : n = k := by simpa using hk
      simp [List.lookup, hk, heq]
    | false =>
      have hne : n ≠ k := by simpa using hk
      simp [List.lookup, hk, hne, ih]

theorem mem_keys_dictInsert (d : List (String × String)) (k v n : String) :
    n ∈ (dictInsert d k v).map Prod.fst ↔ n ∈ d.map Prod.fst ∨ n = k := by
  rw [dictInsert]
  by_cases hany : d.any (fun p => p.fst == k) = true
  · rw [if_pos hany]
    have hkeys : (d.map (fun p => if p.fst == k then (k, v) else p)).map Prod.fst
        = d.map Prod.fst := by
      rw [List.map_map]
      apply List.map_congr_left
      intro p _
      show (if p.fst == k then ((k : String), v) else p).fst = p.fst
      split
      next h =>
        have hpk : p.fst = k := by simpa using h
        simp [hpk]
      next => rfl
    rw [hkeys]
    constructor
    · exact Or.inl
    · rintro (h | rfl)
      · exact h
      · rcases List.any_eq_true.mp hany with ⟨p, hp, hpk⟩
        have hpn : p.fst = n := by simpa using hpk
        exact hpn ▸ List.mem_map.mpr ⟨p, hp, rfl⟩
  · rw [if_neg hany, List.map_append]
    simp

theorem inner_keys (dname : String) (fs : List String) :
    ∀ (acc : List (String × String)) (n : String),
      (n ∈ acc.map Prod.fst ∨ n ∈ fs) →
      n ∈ (fs.foldl (fun a f => dictInsert a f dname) acc).map Prod.fst := by
  induction fs with
  | nil =>
    intro acc n h
    rcases h with h | h
    · exact h
    · simp at h
  | cons f fs' ih =>
    intro acc n h
    rw [List.foldl_cons]
    apply ih
    rcases h with h | h
    · exact Or.inl ((mem_keys_dictInsert acc f dname n).mpr (Or.inl h))
    · rcases List.mem_cons.mp h with rfl | h2
      · exact Or.inl ((mem_keys_dictInsert acc n dname n).mpr (Or.inr rfl))
      · exact Or.inr h2

theorem collect_complete_aux (dirs : List (String × List String)) :
    ∀ (acc : List (String × String)) (n : String),
      (n ∈ acc.map Prod.fst ∨
        ∃ p ∈ dirs, startsWithSeg "batch_".data p.fst.data = true ∧ n ∈ p.snd) →
      n ∈ (dirs.foldl
          (fun acc dir =>
            if startsWithSeg "batch_".data dir.fst.data then
              dir.snd.foldl (fun a f => dictInsert a f dir.fst) acc
            else acc) acc).map Prod.fst := by
  induction dirs with
  | nil =>
    intro acc n h
    rcases h with h | ⟨p, hp, _⟩
    · exact h
    · simp at hp
  | cons d ds ih =>
    intro acc n h
    rw [List.foldl_cons]
    apply ih
    by_cases hpref : startsWithSeg "batch_".data d.fst.data = true
    · rw [if_pos hpref]
      rcases h with h | ⟨p, hp, hp2, hp3⟩
      · exact Or.inl (inner_keys d.fst d.snd acc n (Or.inl h))
      · rcases List.mem_cons.mp hp with rfl | hds
        · exact Or.inl (inner_keys p.fst p.snd acc n (Or.inr hp3))
        · exact Or.inr ⟨p, hds, hp2, hp3⟩
    · rw [if_neg hpref]
      rcases h with h | ⟨p, hp, hp2, hp3⟩
      · exact Or.inl h
      · rcases List.mem_cons.mp hp with rfl | hds
        · exact absurd hp2 hpref
        · exact Or.inr ⟨p, hds, hp2, hp3⟩

theorem collect_complete {dirs : List (String × List String)}
    {p : String × List String} {n : String} (hp : p ∈ dirs)
    (hpref : startsWithSeg "batch_".data p.fst.data = true) (hn : n ∈ p.snd) :
    ∃ b, (collectExisting dirs).lookup n = some b := by
  rw [lookup_isSome_iff_mem_keys]
  exact collect_complete_aux dirs [] n (Or.inr ⟨p, hp, hpref, hn⟩)

theorem uploadStep_dup_mono (now : String) (existing : List (String × String))
    (st : UploadState) (f : UploadFile) :
    ∀ g ∈ st.duplicate_files, g ∈ (uploadStep now existing st f).duplicate_files := by
  rw [uploadStep]
  split
  · split
    · exact fun g hg => List.mem_append_left _ hg
    · exact fun g hg => hg
  · exact fun g hg => hg

theorem uploadFold_dup_mono (now : String) (existing : List (String × String))
    (files : List UploadFile) :
    ∀ st : UploadState, ∀ g ∈ st.duplicate_files,
      g ∈ (files.foldl (uploadStep now existing) st).duplicate_files := by
  induction files with
  | nil => exact fun st g hg => hg
  | cons f fs ih =>
    intro st g hg
    rw [List.foldl_cons]
    exact ih _ g (uploadStep_dup_mono now existing st f g hg)

theorem uploadFold_not_added (now : String) (existing : List (String × String))
    (n b : String) (hlook : existing.lookup n = some b)
    (files : List UploadFile) :
    ∀ st : UploadState,
      (n ∉ st.uploaded_files →
        n ∉ (files.foldl (uploadStep now existing) st).uploaded_files) ∧
      (n ∉ st.saved_in_batch_dir →
        n ∉ (files.foldl (uploadStep now existing) st).saved_in_batch_dir) := by
  induction files with
  | nil => exact fun st => ⟨fun h => h, fun h => h⟩
  | cons f fs ih =>
    intro st
    have hstep : (n ∉ st.uploaded_files →
        n ∉ (uploadStep now existing st f).uploaded_files) ∧
        (n ∉ st.saved_in_batch_dir →
          n ∉ (uploadStep now existing st f).saved_in_batch_dir) := by
      rw [uploadStep]
      split
      · rcases hfl : existing.lookup f.secured_name with _ | prev
        · have hne : f.secured_name ≠ n := by
            intro hc
            rw [hc, hlook] at hfl
            cases hfl
          constructor
          · intro h hin
            rcases List.mem_append.mp hin with h1 | h2
            · exact h h1
            · have h2n : n = f.secured_name := by simpa using h2
              exact hne h2n.symm
          · intro h hin
            rcases List.mem_append.mp hin with h1 | h2
            · exact h h1
            · have h2n : n = f.secured_name := by simpa using h2
              exact hne h2n.symm
        · exact ⟨fun h => h, fun h => h⟩
      · exact ⟨fun h => h, fun h => h⟩
    rw [List.foldl_cons]
    constructor
    · exact fun h => (ih _).1 (hstep.1 h)
    · exact fun h => (ih _).2 (hstep.2 h)

theorem uploadFold_dup_report (now : String) (existing : List (String × String))
    (n b : String) (hlook : existing.lookup n = some b)
    (files : List UploadFile) :
    ∀ (st : UploadState) (f : UploadFile), f ∈ files →
      allowed_file f.raw_name.data = true → f.secured_name = n →
      (⟨n, b, "N/A"⟩ : DupFile) ∈
        (files.foldl (uploadStep now existing) st).duplicate_files := by
  induction files with
  | nil => intro st f hf; simp at hf
  | cons g gs ih =>
    intro st f hf hall hsec
    rw [List.foldl_cons]
    rcases List.mem_cons.mp hf with rfl | hmem
    · have hstep : (⟨n, b, "N/A"⟩ : DupFile) ∈
          (uploadStep now existing st f).duplicate_files := by
        rw [uploadStep, if_pos hall, hsec, hlook]
        show (⟨n, b, "N/A"⟩ : DupFile) ∈ st.duplicate_files ++ [⟨n, b, "N/A"⟩]
        exact List.mem_append_right _ (List.mem_singleton.mpr rfl)
      exact uploadFold_dup_mono now existing gs _ _ hstep
    · exact ih _ f hmem hall hsec

theorem uploadFold_saved_fresh (now : String) (existing : List (String × String))
    (files : List UploadFile) :
    ∀ st : UploadState,
      (∀ m ∈ st.saved_in_batch_dir, existing.lookup m = none) →
      ∀ m ∈ (files.foldl (uploadStep now existing) st).saved_in_batch_dir,
        existing.lookup m = none := by
  induction files with
  | nil => exact fun st h => h
  | cons f fs ih =>
    intro st h
    rw [List.foldl_cons]
    apply ih
    intro m hm
    rw [uploadStep] at hm
    split at hm
    · rcases hfl : existing.lookup f.secured_name with _ | prev
      · rw [hfl] at hm
        rcases List.mem_append.mp hm with h1 | h2
        · exact h m h1
        · have : m = f.secured_name := by simpa using h2
          rw [this, hfl]
      · rw [hfl] at hm
        exact h m hm
    · exact h m hm

/-- Claim C10 (confirmed): the upload endpoint never stores a file whose
(secured) name already exists as a `.eml` file in some existing `batch_`
directory — every posted file with such a name is skipped (not saved to the
new batch directory, not added to `uploaded_files`) and, when it passes the
extension check, reported in `duplicate_files` with the owning batch
recorded by the scan; consequently nothing saved by the upload collides
with any pre-existing batch directory, preserving the at-most-one-directory
invariant for `.eml` filenames. -/
theorem C10_upload (now bid label n b : String)
    (dirs : List (String × List String)) (files : List UploadFile)
    (hlook : (collectExisting dirs).lookup n = some b) :
    n ∉ (upload_files now bid label dirs files).1.uploaded_files ∧
    n ∉ (upload_files now bid label dirs files).1.saved_in_batch_dir ∧
    (∀ f ∈ files, allowed_file f.raw_name.data = true → f.secured_name = n →
      (⟨n, b, "N/A"⟩ : DupFile) ∈
        (upload_files now bid label dirs files).1.duplicate_files) ∧
    (∀ m ∈ (upload_files now bid label dirs files).1.saved_in_batch_dir,
      ∀ p ∈ dirs, startsWithSeg "batch_".data p.fst.data = true → m ∉ p.snd) := by
  have hu := uploadFold_not_added now (collectExisting dirs) n b hlook files
    ⟨[], [], [], []⟩
  refine ⟨hu.1 (by simp), hu.2 (by simp), ?_, ?_⟩
  · intro f hf hall hsec
    exact uploadFold_dup_report now (collectExisting dirs) n b hlook files
      ⟨[], [], [], []⟩ f hf hall hsec
  · intro m hm p hp hpref hmem
    have hfresh := uploadFold_saved_fresh now (collectExisting dirs) files
      ⟨[], [], [], []⟩ (by simp) m hm
    rcases collect_complete hp hpref hmem with ⟨b2, hb2⟩
    rw [hfresh] at hb2
    cases hb2

/-- Witness for C10: one existing batch directory holding `dup.eml`, an
upload posting `dup.eml` again plus a fresh `new.eml`. -/
theorem C10_witness :
    (collectExisting wit10dirs).lookup "dup.eml" = some "batch_A" ∧
    ("dup.eml" ∉ (upload_files "t" "batch_N" "lbl" wit10dirs wit10files).1.uploaded_files ∧
    "dup.eml" ∉ (upload_files "t" "batch_N" "lbl" wit10dirs
        wit10files).1.saved_in_batch_dir ∧
    (∀ f ∈ wit10files, allowed_file f.raw_name.data = true →
      f.secured_name = "dup.eml" →
      (⟨"dup.eml", "batch_A", "N/A"⟩ : DupFile) ∈
        (upload_files "t" "batch_N" "lbl" wit10dirs wit10files).1.duplicate_files) ∧
    (∀ m ∈ (upload_files "t" "batch_N" "lbl" wit10dirs wit10files).1.saved_in_batch_dir,
      ∀ p ∈ wit10dirs, startsWithSeg "batch_".data p.fst.data = true → m ∉ p.snd)) :=
  ⟨by decide,
    C10_upload "t" "batch_N" "lbl" "dup.eml" "batch_A" wit10dirs wit10files (by decide)⟩

/-- Witness for C3 (corrected) at the identical cleaned text `"z"`. -/
theorem C3_witness :
    witC.cleaned_content = witD.cleaned_content ∧
      normalizeText witD.cleaned_content ≠ [] ∧
      find_duplicates [witC, witD] =
        ([{ witC with contained_files := witC.contained_files ++ [witD.filename] }],
         [⟨witD.filename, witD.subject, witC.filename, witC.subject,
           (normalizeText witD.cleaned_content).length⟩]) :=
  ⟨by decide, by decide, C3_amended witC witD (by decide) (by decide)⟩

end EmlProc
